import Mathlib

/-!
# Verification of the `docx_processor` chunking engine

This file is a shallow embedding, in Lean 4, of the document-chunking engine
implemented in `src/docx_processor/chunking.py`, together with theorems that
settle the specification claims about it.

Modelling conventions:

* Python strings are modelled as `List Char` (`Text`); `text[a:b]` is `slice`.
* Python's arbitrary-precision ints appear as `Int` where the source can hold
  negative values (the configuration fields), and as `Nat` for character
  offsets and token counts, which are provably non-negative.
* `count_tokens` delegates to the external `tiktoken` library when an encoder
  was obtained, else uses the in-source approximation `len(text) // 4`.
  The encoder is an external collaborator (not part of this repository), so
  this embedding models a session whose counter is the in-source approximate
  variant `len // 4` — the fallback branch of `count_tokens`.
* Python dicts (metadata) are association lists (`Dict`) with Python's
  insertion-order update semantics (`dictInsert`).
* The `while` loop of `chunk_text` has no structural termination measure in
  the source (and in fact can diverge, see `chunk_text_diverges`), so the
  embedding `chunk_text` takes a `fuel` argument bounding the number of chunk
  iterations and returns `none` when the bound is hit.  A `some` result is
  exactly a run that the source loop completes.
* Python `re` boundary patterns (`\n\n+`, `[.!?]\s+`) over the sliced prefix
  are modelled by a characterisation of "end offset of the last match":
  for `\n\n+` (greedy, non-overlapping) the matches are the maximal runs of
  at least two newlines clipped to the prefix, so the last match end is the
  greatest `j` with two newlines right before `j` and no newline at `j`
  (unless clipped); analogously for `[.!?]\s+` (a punctuation character
  followed by a maximal whitespace run).  `\s` is modelled over the ASCII
  whitespace class.
-/

namespace DocxProcessor

/-- Python strings, as lists of characters. -/
abbrev Text := List Char

/-- Python slicing `t[a:b]` for `0 ≤ a`, `0 ≤ b` (yields `[]` when `b ≤ a`). -/
def slice (t : Text) (a b : Nat) : Text := (t.drop a).take (b - a)

/-- Values that the metadata dictionaries of `chunking.py` hold
(`int`, `str`, `bool` and `None`). -/
inductive Value where
  | int : Int → Value
  | str : String → Value
  | bool : Bool → Value
  | null : Value
deriving DecidableEq, Repr

/-- A Python dict with string keys, as an association list in insertion
order. -/
abbrev Dict := List (String × Value)

/-- Python `d[k] = v` / the `{**d, k: v}` update: an existing key keeps its
position and gets the new value, a new key is appended at the end. -/
def dictInsert : Dict → String → Value → Dict
  | [], k, v => [(k, v)]
  | (k', v') :: rest, k, v =>
    if k' = k then (k', v) :: rest else (k', v') :: dictInsert rest k v

/-- Python `d.get(k)`. -/
def dictGet : Dict → String → Option Value
  | [], _ => none
  | (k', v') :: rest, k => if k' = k then some v' else dictGet rest k

/-- The `Chunk` dataclass of `chunking.py`. -/
structure Chunk where
  id : Nat
  content : Text
  token_count : Nat
  char_count : Nat
  start_index : Nat
  end_index : Nat
  overlap_tokens : Int
  metadata : Dict
deriving DecidableEq, Repr

/-- The configuration state stored by `DocumentChunker.__init__`.
The tiktoken encoder object (`self.encoding`) is external to the repository
and is not represented; `count_tokens` below models the in-source approximate
counting branch. -/
structure DocumentChunker where
  max_tokens : Int
  overlap_tokens : Int
  respect_boundaries : Bool
deriving DecidableEq, Repr

/-- `DocumentChunker.__init__`: stores the configuration.  The source
constructor performs no validation of `max_tokens`/`overlap_tokens`; its only
conditional logic is the `try/except` around the external tiktoken lookup,
which on failure silently falls back to approximate counting.  It never
raises for any configuration. -/
def documentChunkerInit (max_tokens overlap_tokens : Int)
    (encoding_model : String) (respect_boundaries : Bool) : DocumentChunker :=
  { max_tokens := max_tokens, overlap_tokens := overlap_tokens,
    respect_boundaries := respect_boundaries }

/-- `DocumentChunker.count_tokens`, approximate branch: `len(text) // 4`. -/
def count_tokens (c : DocumentChunker) (t : Text) : Nat := t.length / 4

/-- The character at offset `i` of `t` exists and satisfies `p`. -/
def charAtIs (t : Text) (i : Nat) (p : Char → Bool) : Prop :=
  (t.get? i).any p = true

instance (t : Text) (i : Nat) (p : Char → Bool) : Decidable (charAtIs t i p) := by
  unfold charAtIs; infer_instance

/-- The characters matched by the regex class `[.!?]`. -/
def isPunctChar (ch : Char) : Bool := ch = '.' || ch = '!' || ch = '?'

/-- The newline character (the regex `\n`). -/
def isNl (ch : Char) : Bool := ch = '\n'

/-- The length of the maximal run of characters satisfying `p` starting at
offset `i` of `t` (used to reason about the greedy `+` quantifier of the
boundary regexes). -/
def runLenFrom (p : Char → Bool) (t : Text) (i : Nat) : Nat :=
  if h : i < t.length then
    if p (t.get ⟨i, h⟩) then runLenFrom p t (i + 1) + 1 else 0
  else 0
termination_by t.length - i
decreasing_by
  simp_wf
  omega

/-- The ASCII characters matched by the regex class `\s`:
space, tab, newline, carriage return, vertical tab, form feed. -/
def isSpaceChar (ch : Char) : Bool :=
  ch = ' ' || ch = '\t' || ch = '\n' || ch = '\r' || ch = '\x0b' || ch = '\x0c'

/-- `j` is the end offset of a match of `\n\n+` in the prefix `t[:m]`
(matches of `\n\n+` under `re.finditer` are exactly the maximal runs of two
or more newlines of the truncated string; a match end is a position preceded
by two newlines and, unless the match is clipped by the prefix end, not
followed by a newline). -/
def ParaEndAt (t : Text) (m j : Nat) : Prop :=
  2 ≤ j ∧ j ≤ m ∧ charAtIs t (j - 1) isNl ∧ charAtIs t (j - 2) isNl ∧
    (j = m ∨ ¬charAtIs t j isNl)

instance (t : Text) (m j : Nat) : Decidable (ParaEndAt t m j) := by
  unfold ParaEndAt; infer_instance

/-- `j` is the end offset of a match of `[.!?]\s+` in the prefix `t[:m]`
(a punctuation character at `i`, followed by a maximal — possibly clipped —
run of whitespace reaching to `j`). -/
def SentEndAt (t : Text) (m j : Nat) : Prop :=
  1 ≤ j ∧ j ≤ m ∧ charAtIs t (j - 1) isSpaceChar ∧
    (j = m ∨ ¬charAtIs t j isSpaceChar) ∧
    ∃ i, i < j ∧ charAtIs t i isPunctChar ∧
      ∀ k, k < j → i < k → charAtIs t k isSpaceChar

instance (t : Text) (m j : Nat) : Decidable (SentEndAt t m j) := by
  unfold SentEndAt; infer_instance

/-- Search direction of `find_natural_boundary`. -/
inductive Direction where
  | backward
  | forward
deriving DecidableEq, Repr

/-- `a` is the start offset (relative to `t[off:]`) of a match of `\n\n+`. -/
def ParaStartAt (t : Text) (off a : Nat) : Prop :=
  t.get? (off + a) = some '\n' ∧ t.get? (off + a + 1) = some '\n'

instance (t : Text) (off a : Nat) : Decidable (ParaStartAt t off a) := by
  unfold ParaStartAt; infer_instance

/-- `i` is the start offset (relative to `t[off:]`) of a match of
`[.!?]\s+`. -/
def SentStartAt (t : Text) (off i : Nat) : Prop :=
  charAtIs t (off + i) isPunctChar ∧ charAtIs t (off + i + 1) isSpaceChar

instance (t : Text) (off i : Nat) : Decidable (SentStartAt t off i) := by
  unfold SentStartAt; infer_instance

/-- `DocumentChunker.find_natural_boundary`.

* backward: `re.finditer` over `text[:target_pos]`; if there are paragraph
  matches return the end of the last one, else if there are sentence matches
  return the end of the last one, else return `target_pos`.  "End of the
  last match" is the greatest match-end offset (`Nat.findGreatest`; both
  match-end predicates are false at `0`, so `0` means "no match").
* forward: `re.search` over `text[target_pos:]`; return `target_pos` plus the
  start of the first paragraph match, else of the first sentence match, else
  `target_pos`. -/
def find_natural_boundary (c : DocumentChunker) (text : Text)
    (target_pos : Nat) (direction : Direction) : Nat :=
  if ¬c.respect_boundaries then target_pos
  else
    match direction with
    | .backward =>
      let m := min target_pos text.length
      let p := Nat.findGreatest (ParaEndAt text m) m
      if p ≠ 0 then p
      else
        let s := Nat.findGreatest (SentEndAt text m) m
        if s ≠ 0 then s else target_pos
    | .forward =>
      let bound := text.length - target_pos
      match (List.range bound).find? (fun a => decide (ParaStartAt text target_pos a)) with
      | some a => target_pos + a
      | none =>
        match (List.range bound).find? (fun i => decide (SentStartAt text target_pos i)) with
        | some i => target_pos + i
        | none => target_pos

/-- The binary search of `chunk_text` (lines 156–163): narrows `[left, right]`
while `left < right - 1`, moving `left` up when the sliced prefix still fits
in the token budget, and returns `left`. -/
def binSearch (c : DocumentChunker) (text : Text) (start : Nat) :
    Nat → Nat → Nat
  | left, right =>
    if left + 1 < right then
      let mid := (left + right) / 2
      if (count_tokens c (slice text start mid) : Int) ≤ c.max_tokens then
        binSearch c text start mid right
      else
        binSearch c text start left mid
    else left
termination_by left right => right - left
decreasing_by
  all_goals simp_wf
  · omega
  · omega

/-- The chunk-growing loop of `chunk_text` (lines 148–167): starting from
`endIdx` with `current = count(text[start:endIdx])`, add batches of up to 100
characters while the running count stays below the budget; on overflow binary
search the overshoot batch and stop. -/
def growLoop (c : DocumentChunker) (text : Text) (start : Nat) :
    Nat → Nat → Nat
  | endIdx, current =>
    if h : endIdx < text.length ∧ (current : Int) < c.max_tokens then
      if (count_tokens c
          (slice text start (endIdx + min 100 (text.length - endIdx))) : Int) >
          c.max_tokens then
        binSearch c text start endIdx (endIdx + min 100 (text.length - endIdx))
      else
        growLoop c text start (endIdx + min 100 (text.length - endIdx))
          (count_tokens c
            (slice text start (endIdx + min 100 (text.length - endIdx))))
    else endIdx
termination_by endIdx _ => text.length - endIdx
decreasing_by
  simp_wf
  omega

/-- The overlap scan of `chunk_text` (lines 213–217): advance `test_pos` in
steps of 50 until the sliced prefix first reaches `target` tokens; if that
never happens before `endIdx`, the caller's `overlap_start` keeps its initial
value `endIdx`. -/
def scanLoop (c : DocumentChunker) (text : Text) (start endIdx : Nat)
    (target : Int) : Nat → Nat
  | testPos =>
    if testPos < endIdx then
      if (count_tokens c (slice text start testPos) : Int) ≥ target then testPos
      else scanLoop c text start endIdx target (testPos + 50)
    else endIdx
termination_by testPos => endIdx - testPos
decreasing_by
  simp_wf
  omega

/-- The next-start computation of `chunk_text` (lines 201–219):
`overlap_start` starts at `endIdx`; when overlap is configured and the chunk
holds more than `overlap_tokens` tokens, scan forward from `start` for the
position that leaves approximately `overlap_tokens` tokens of overlap. -/
def overlapStart (c : DocumentChunker) (text : Text) (start endIdx : Nat) :
    Nat :=
  if c.overlap_tokens > 0 then
    let tokens := count_tokens c (slice text start endIdx)
    if (tokens : Int) > c.overlap_tokens then
      scanLoop c text start endIdx ((tokens : Int) - c.overlap_tokens) start
    else endIdx
  else endIdx

/-- The end offset of the chunk starting at `start` (lines 143–171): grow up
to the token budget, then snap backward to a natural boundary unless the
growth reached end-of-text. -/
def chunkEnd (c : DocumentChunker) (text : Text) (start : Nat) : Nat :=
  if growLoop c text start start 0 < text.length then
    find_natural_boundary c text (growLoop c text start start 0) .backward
  else growLoop c text start start 0

/-- The start offset of the next chunk after the chunk `[start, chunkEnd)`
(lines 197–219). -/
def nextStartOf (c : DocumentChunker) (text : Text) (start : Nat) : Nat :=
  overlapStart c text start (chunkEnd c text start)

/-- The deferred patch of lines 222–224: set `metadata["total_chunks"]` of
every chunk to the length of the full list.  (The identical patch at lines
271–273 of `chunk_document_sections` is the same function.) -/
def patchTotal (chunks : List Chunk) : List Chunk :=
  chunks.map fun ch =>
    { ch with metadata := dictInsert ch.metadata "total_chunks" (.int chunks.length) }

/-- The merged per-chunk metadata dict of lines 178–183:
`{**base_metadata, "chunk_index": chunk_id, "total_chunks": None,
"has_overlap": chunk_id > 0}`. -/
def mergedMd (base : Dict) (chunkId : Nat) : Dict :=
  dictInsert (dictInsert (dictInsert base
    "chunk_index" (.int chunkId)) "total_chunks" .null)
    "has_overlap" (.bool (decide (chunkId > 0)))

/-- The chunk record built by one iteration of `chunk_text` (lines 143–194):
content and counts for the span `[start, chunkEnd)`, `overlap_tokens` from
the configuration for every chunk but the first, and the merged metadata dict
`mergedMd`. -/
def chunkAt (c : DocumentChunker) (text : Text) (base : Dict)
    (start chunkId : Nat) : Chunk :=
  { id := chunkId,
    content := slice text start (chunkEnd c text start),
    token_count := count_tokens c (slice text start (chunkEnd c text start)),
    char_count := (slice text start (chunkEnd c text start)).length,
    start_index := start,
    end_index := chunkEnd c text start,
    overlap_tokens := if chunkId > 0 then c.overlap_tokens else 0,
    metadata := mergedMd base chunkId }

/-- The main loop of `chunk_text` (lines 141–220), with explicit `fuel`
bounding the number of iterations (the source has no such bound and can
diverge; see `chunk_text_diverges`). -/
def chunkLoop (c : DocumentChunker) (text : Text) (base : Dict) :
    Nat → Nat → Nat → List Chunk → Option (List Chunk)
  | 0, _, _, _ => none
  | fuel + 1, start, chunkId, acc =>
    if start < text.length then
      let acc' := acc ++ [chunkAt c text base start chunkId]
      if chunkEnd c text start ≥ text.length then some (patchTotal acc')
      else chunkLoop c text base fuel (nextStartOf c text start) (chunkId + 1) acc'
    else some (patchTotal acc)

/-- `DocumentChunker.chunk_text`.  `metadata.getD []` models
`base_metadata = metadata or {}` (value-wise). -/
def chunk_text (c : DocumentChunker) (text : Text) (metadata : Option Dict)
    (fuel : Nat) : Option (List Chunk) :=
  if text.isEmpty then some []
  else chunkLoop c text (metadata.getD []) fuel 0 0 []

/-- A section record as consumed by `chunk_document_sections`: a dict with a
`content` entry and optional `title`/`level`/`path` entries; a missing entry
is `none` (`section.get(key, default)` in the source). -/
structure Section where
  content : Option Text
  title : Option String
  level : Option Int
  path : Option String
deriving DecidableEq, Repr

/-- The per-section seed metadata of `chunk_document_sections`
(lines 248–253). -/
def sectionMetadata (idx : Nat) (s : Section) : Dict :=
  [("section_index", .int idx),
   ("section_title", .str (s.title.getD ("Section " ++ toString (idx + 1)))),
   ("section_level", .int (s.level.getD 1)),
   ("section_path", .str (s.path.getD ""))]

/-- The global renumbering of lines 259–263: walking the section's chunks in
order with the running counter `k`, each chunk gets `id := k` and a matching
`metadata["global_chunk_id"]`, and the counter advances. -/
def renumberFrom (k : Nat) : List Chunk → List Chunk
  | [] => []
  | ch :: rest =>
    { ch with
      id := k,
      metadata := dictInsert ch.metadata "global_chunk_id" (.int k) } ::
      renumberFrom (k + 1) rest

/-- The section loop of `chunk_document_sections` (lines 246–269): `idx` is
the `enumerate` index, `k` the running global chunk id.  A section whose
content is missing or empty is skipped (the `else: pass` branch also fires
whenever `preserve_structure` is false). -/
def chunkDocumentSectionsLoop (c : DocumentChunker) (fuel : Nat)
    (preserve : Bool) : List Section → Nat → Nat → Option (List Chunk)
  | [], _, _ => some []
  | s :: rest, idx, k =>
    let content := s.content.getD []
    if preserve = true ∧ content ≠ [] then
      match chunk_text c content (some (sectionMetadata idx s)) fuel with
      | none => none
      | some scs =>
        match chunkDocumentSectionsLoop c fuel preserve rest (idx + 1) (k + scs.length) with
        | none => none
        | some restChunks => some (renumberFrom k scs ++ restChunks)
    else chunkDocumentSectionsLoop c fuel preserve rest (idx + 1) k

/-- `DocumentChunker.chunk_document_sections` (lines 228–275), with the final
grand-total patch of lines 271–273. -/
def chunk_document_sections (c : DocumentChunker) (sections : List Section)
    (preserve_structure : Bool) (fuel : Nat) : Option (List Chunk) :=
  (chunkDocumentSectionsLoop c fuel preserve_structure sections 0 0).map patchTotal

/-- One record of the `chunk_boundaries` list of `create_chunk_summary`
(keys `chunk_id`, `start`, `end`, `tokens`; `end` is a Lean keyword and is
rendered `stop`). -/
structure SummaryBoundary where
  chunk_id : Nat
  start : Nat
  stop : Nat
  tokens : Nat
deriving DecidableEq, Repr

/-- The summary dict of `create_chunk_summary`.  `chunk_boundaries` is an
`Option` because the empty-input branch of the source returns a dict that
does not contain the `chunk_boundaries` key at all; `none` models the absent
key.  `overlap_ratio` is a Python float computed by true division; it is
modelled as an exact rational (the empty-input branch returns the int `0`,
modelled as `(0 : Rat)`). -/
structure Summary where
  total_chunks : Nat
  total_tokens : Nat
  total_characters : Nat
  average_chunk_size : Nat
  overlap_ratio : Rat
  chunk_boundaries : Option (List SummaryBoundary)
deriving DecidableEq, Repr

/-- `DocumentChunker.create_chunk_summary` (lines 277–319). -/
def create_chunk_summary (c : DocumentChunker) (chunks : List Chunk) :
    Summary :=
  if chunks = [] then
    { total_chunks := 0, total_tokens := 0, total_characters := 0,
      average_chunk_size := 0, overlap_ratio := 0, chunk_boundaries := none }
  else
    let total_tokens := (chunks.map (·.token_count)).sum
    let total_chars := (chunks.map (·.char_count)).sum
    let avg := total_tokens / chunks.length
    let total_overlap := ((chunks.drop 1).map (·.overlap_tokens)).sum
    let ratio : Rat :=
      if total_tokens > 0 then (total_overlap : Rat) / (total_tokens : Rat) else 0
    { total_chunks := chunks.length, total_tokens := total_tokens,
      total_characters := total_chars, average_chunk_size := avg,
      overlap_ratio := ratio,
      chunk_boundaries := some (chunks.map fun ch =>
        { chunk_id := ch.id, start := ch.start_index, stop := ch.end_index,
          tokens := ch.token_count }) }

/-! ## Reference-semantics model of the metadata dicts

Python dicts are mutable heap objects.  To state the frame property of
`chunk_text` over the caller's metadata dict (claim about mutation), the
following variant of `chunk_text` makes the dict heap explicit: a `Store` is
the list of live dicts, a dict is referred to by its index, and the chunk
record holds a reference.  The control flow and all offset computations are
identical to `chunk_text` above (they share `chunkEnd`/`nextStartOf`); only
the dict operations differ: `{**base, ...}` allocates a fresh dict,
`chunk.metadata["total_chunks"] = n` mutates the chunk's dict in place. -/

/-- The heap of metadata dicts. -/
abbrev Store := List Dict

/-- A `Chunk` whose `metadata` field is a reference into a `Store`. -/
structure ChunkS where
  id : Nat
  content : Text
  token_count : Nat
  char_count : Nat
  start_index : Nat
  end_index : Nat
  overlap_tokens : Int
  metadata : Nat
deriving DecidableEq, Repr

/-- One step of the deferred `total_chunks` patch under reference semantics:
`chunk.metadata["total_chunks"] = v` mutates the chunk's dict in place. -/
def patchOne (v : Value) (σ : Store) (ch : ChunkS) : Store :=
  σ.set ch.metadata
    (dictInsert ((σ.get? ch.metadata).getD []) "total_chunks" v)

/-- The deferred `total_chunks` patch (lines 222–224) under reference
semantics: mutate each chunk's dict in the store. -/
def patchTotalS (chunks : List ChunkS) (σ : Store) : Store :=
  chunks.foldl (patchOne (.int chunks.length)) σ

/-- The main loop of `chunk_text` under reference semantics for the metadata
dicts.  `baseRef` is the reference to `base_metadata`; each iteration reads
it, builds the merged dict `{**base, "chunk_index": …, "total_chunks": None,
"has_overlap": …}` and allocates it as a fresh dict at the end of the
store. -/
def chunkLoopS (c : DocumentChunker) (text : Text) (baseRef : Nat) :
    Nat → Store → Nat → Nat → List ChunkS → Option (Store × List ChunkS)
  | 0, _, _, _, _ => none
  | fuel + 1, σ, start, chunkId, acc =>
    if start < text.length then
      let endIdx := chunkEnd c text start
      let content := slice text start endIdx
      let md := mergedMd ((σ.get? baseRef).getD []) chunkId
      let ch : ChunkS :=
        { id := chunkId, content := content,
          token_count := count_tokens c content,
          char_count := content.length,
          start_index := start, end_index := endIdx,
          overlap_tokens := if chunkId > 0 then c.overlap_tokens else 0,
          metadata := σ.length }
      let σ' := σ ++ [md]
      let acc' := acc ++ [ch]
      if endIdx ≥ text.length then some (patchTotalS acc' σ', acc')
      else chunkLoopS c text baseRef fuel σ' (nextStartOf c text start) (chunkId + 1) acc'
    else some (patchTotalS acc σ, acc)

/-- `chunk_text` under reference semantics.  `metadata` is `none` (Python
`None`) or a reference into `σ`; `base_metadata = metadata or {}` keeps the
caller's reference when the dict is truthy (non-empty) and otherwise
allocates a fresh empty dict. -/
def chunk_textS (c : DocumentChunker) (text : Text) (metadata : Option Nat)
    (σ : Store) (fuel : Nat) : Option (Store × List ChunkS) :=
  if text.isEmpty then some (σ, [])
  else
    match metadata with
    | none => chunkLoopS c text σ.length fuel (σ ++ [[]]) 0 0 []
    | some r =>
      if (σ.get? r).getD [] = [] then
        chunkLoopS c text σ.length fuel (σ ++ [[]]) 0 0 []
      else chunkLoopS c text r fuel σ 0 0 []

/-- A valid configuration (`max_tokens = 1`, `overlap_tokens = 0`,
boundary-respecting on) on which `chunk_text` diverges; see
`chunk_text_diverges`. -/
def divergenceChunker : DocumentChunker := ⟨1, 0, true⟩

/-- A 12-character text on which `chunk_text` with `divergenceChunker`
diverges: the second iteration starts at offset 3 (the end of the snapped
first chunk `"A. "`), grows to offset 10, and the backward boundary snap —
which searches the whole prefix `text[:10]`, not just `[start, end]` — lands
back on the sentence boundary at offset 3, producing an empty chunk and a
next start equal to the current start, forever. -/
def divergenceText : Text := "A. bcdefghij".data

/-- The chunk list `chunk_text ⟨2000, 200, true⟩ "ab" none 1` returns
(a single chunk covering the whole text). -/
def coverageWitnessRun : List Chunk :=
  [⟨0, "ab".data, 0, 2, 0, 2, 0,
    [("chunk_index", .int 0), ("total_chunks", .int 1),
      ("has_overlap", .bool false)]⟩]

/-- The chunk list `chunk_text ⟨1, 0, true⟩ "Ab. cdefgh" none 2` returns:
the first chunk is snapped back from the grown offset 7 to the sentence
boundary at 4. -/
def snapWitnessRun : List Chunk :=
  [⟨0, "Ab. ".data, 1, 4, 0, 4, 0,
    [("chunk_index", .int 0), ("total_chunks", .int 2),
      ("has_overlap", .bool false)]⟩,
   ⟨1, "cdefgh".data, 1, 6, 4, 10, 0,
    [("chunk_index", .int 1), ("total_chunks", .int 2),
      ("has_overlap", .bool true)]⟩]

/-! ## Basic lemmas about the embedding -/

theorem charAtIs_iff {t : Text} {i : Nat} {p : Char → Bool} :
    charAtIs t i p ↔ ∃ ch, t.get? i = some ch ∧ p ch = true := by
  unfold charAtIs
  cases h : t.get? i <;> simp [Option.any]

theorem slice_length (t : Text) (a b : Nat) :
    (slice t a b).length = min (b - a) (t.length - a) := by
  simp [slice]

theorem count_tokens_slice (c : DocumentChunker) (t : Text) (a b : Nat) :
    count_tokens c (slice t a b) = min (b - a) (t.length - a) / 4 := by
  simp [count_tokens, slice_length]

theorem dictGet_dictInsert_self (d : Dict) (k : String) (v : Value) :
    dictGet (dictInsert d k v) k = some v := by
  induction d with
  | nil => simp [dictInsert, dictGet]
  | cons hd tl ih =>
    obtain ⟨k', v'⟩ := hd
    by_cases h : k' = k <;> simp [dictInsert, dictGet, h, ih]

theorem dictGet_dictInsert_ne (d : Dict) (k k' : String) (v : Value)
    (h : k' ≠ k) : dictGet (dictInsert d k v) k' = dictGet d k' := by
  induction d with
  | nil =>
    simp only [dictInsert, dictGet]
    rw [if_neg (Ne.symm h)]
  | cons hd tl ih =>
    obtain ⟨k₀, v₀⟩ := hd
    by_cases h0 : k₀ = k
    · subst h0
      simp only [dictInsert, if_pos rfl, dictGet]
      rw [if_neg (Ne.symm h), if_neg (Ne.symm h)]
    · simp only [dictInsert, if_neg h0, dictGet]
      by_cases h1 : k₀ = k'
      · rw [if_pos h1, if_pos h1]
      · rw [if_neg h1, if_neg h1]
        exact ih

theorem patchTotal_nil : patchTotal [] = [] := rfl

theorem patchTotal_length (l : List Chunk) : (patchTotal l).length = l.length := by
  simp [patchTotal]

theorem patchTotal_cons (x : Chunk) (l : List Chunk) :
    patchTotal (x :: l) =
      { x with
        metadata := dictInsert x.metadata "total_chunks"
          (.int (x :: l).length) } ::
      l.map (fun ch => { ch with
        metadata := dictInsert ch.metadata "total_chunks"
          (.int (x :: l).length) }) := by
  simp [patchTotal]

theorem patchTotal_map_id (l : List Chunk) :
    (patchTotal l).map (·.id) = l.map (·.id) := by
  simp [patchTotal]

theorem mem_patchTotal {l : List Chunk} {ch : Chunk} (h : ch ∈ patchTotal l) :
    ∃ ch₀ ∈ l, ch = { ch₀ with
      metadata := dictInsert ch₀.metadata "total_chunks" (.int l.length) } := by
  simp only [patchTotal, List.mem_map] at h
  obtain ⟨ch₀, h₀, rfl⟩ := h
  exact ⟨ch₀, h₀, rfl⟩

theorem patchTotal_append (a b : List Chunk) :
    patchTotal (a ++ b) =
      a.map (fun ch => { ch with
        metadata := dictInsert ch.metadata "total_chunks"
          (.int (a.length + b.length)) }) ++
      b.map (fun ch => { ch with
        metadata := dictInsert ch.metadata "total_chunks"
          (.int (a.length + b.length)) }) := by
  simp [patchTotal]

/-! ## The growth, binary-search and overlap-scan loops -/

theorem binSearch_spec (c : DocumentChunker) (t : Text) (start : Nat) :
    ∀ (n left right : Nat), right - left = n → left < right →
      (count_tokens c (slice t start left) : Int) ≤ c.max_tokens →
      (count_tokens c (slice t start right) : Int) > c.max_tokens →
      left ≤ binSearch c t start left right ∧
        binSearch c t start left right < right ∧
        (count_tokens c (slice t start (binSearch c t start left right)) : Int) ≤
          c.max_tokens ∧
        (count_tokens c
          (slice t start (binSearch c t start left right + 1)) : Int) >
          c.max_tokens := by
  intro n
  induction n using Nat.strong_induction_on with
  | _ n ih =>
    intro left right hn hlt hl hr
    rw [binSearch]
    by_cases hstep : left + 1 < right
    · rw [if_pos hstep]
      by_cases hc : (count_tokens c (slice t start ((left + right) / 2)) : Int) ≤
          c.max_tokens
      · rw [if_pos hc]
        have hres := ih (right - (left + right) / 2) (by omega)
          ((left + right) / 2) right rfl (by omega) hc hr
        exact ⟨le_trans (by omega) hres.1, hres.2⟩
      · rw [if_neg hc]
        have hres := ih ((left + right) / 2 - left) (by omega) left
          ((left + right) / 2) rfl (by omega) hl (by omega)
        exact ⟨hres.1, by omega, hres.2.2⟩
    · rw [if_neg hstep]
      have hone : right = left + 1 := by omega
      exact ⟨le_refl _, by omega, hl, by rw [← hone]; exact hr⟩

theorem growLoop_spec (c : DocumentChunker) (t : Text) (start : Nat)
    (m : Nat) (hm : c.max_tokens = (m : Int)) :
    ∀ (n endIdx current : Nat), t.length - endIdx = n → start ≤ endIdx →
      endIdx ≤ t.length → current = count_tokens c (slice t start endIdx) →
      (current : Int) ≤ c.max_tokens →
      start ≤ growLoop c t start endIdx current ∧
        growLoop c t start endIdx current ≤ t.length ∧
        (count_tokens c
          (slice t start (growLoop c t start endIdx current)) : Int) ≤
          c.max_tokens ∧
        (growLoop c t start endIdx current < t.length →
          start + 4 * m ≤ growLoop c t start endIdx current) := by
  intro n
  induction n using Nat.strong_induction_on with
  | _ n ih =>
    intro endIdx current hn hse hel hcur hmax
    rw [growLoop]
    by_cases hcond : endIdx < t.length ∧ (current : Int) < c.max_tokens
    · rw [dif_pos hcond]
      by_cases hov : (count_tokens c
          (slice t start (endIdx + min 100 (t.length - endIdx))) : Int) >
          c.max_tokens
      · rw [if_pos hov]
        have hbatch : 1 ≤ min 100 (t.length - endIdx) ∧
            endIdx + min 100 (t.length - endIdx) ≤ t.length := by omega
        have hbs := binSearch_spec c t start
          (endIdx + min 100 (t.length - endIdx) - endIdx) endIdx
          (endIdx + min 100 (t.length - endIdx)) rfl (by omega)
          (by rw [← hcur]; exact hmax) hov
        refine ⟨le_trans hse hbs.1, by omega, hbs.2.2.1, ?_⟩
        intro _
        have hlt := hbs.2.2.2
        rw [count_tokens_slice, hm] at hlt
        have : min (binSearch c t start endIdx
            (endIdx + min 100 (t.length - endIdx)) + 1 - start)
            (t.length - start) / 4 > m := by exact_mod_cast hlt
        have hble : binSearch c t start endIdx
            (endIdx + min 100 (t.length - endIdx)) + 1 ≤ t.length := by omega
        omega
      · rw [if_neg hov]
        exact ih (t.length - (endIdx + min 100 (t.length - endIdx)))
          (by omega) (endIdx + min 100 (t.length - endIdx)) _ rfl
          (by omega) (by omega) rfl (by omega)
    · rw [dif_neg hcond]
      refine ⟨hse, hel, by rw [← hcur]; exact hmax, ?_⟩
      intro hlt
      have hge : (current : Int) ≥ c.max_tokens := by
        rcases not_and_or.mp hcond with h | h
        · exact absurd hlt h
        · omega
      rw [hcur, count_tokens_slice, hm] at hge
      have : min (endIdx - start) (t.length - start) / 4 ≥ m := by
        exact_mod_cast hge
      omega

theorem scanLoop_spec (c : DocumentChunker) (t : Text) (start endIdx : Nat)
    (target : Int) :
    ∀ (n testPos : Nat), endIdx - testPos = n →
      scanLoop c t start endIdx target testPos = endIdx ∨
        (testPos ≤ scanLoop c t start endIdx target testPos ∧
          scanLoop c t start endIdx target testPos < endIdx ∧
          (count_tokens c
            (slice t start (scanLoop c t start endIdx target testPos)) : Int) ≥
            target) := by
  intro n
  induction n using Nat.strong_induction_on with
  | _ n ih =>
    intro testPos hn
    rw [scanLoop]
    by_cases hlt : testPos < endIdx
    · rw [if_pos hlt]
      by_cases hc : (count_tokens c (slice t start testPos) : Int) ≥ target
      · rw [if_pos hc]
        exact Or.inr ⟨le_refl _, hlt, hc⟩
      · rw [if_neg hc]
        rcases ih (endIdx - (testPos + 50)) (by omega) (testPos + 50) rfl with
          h | ⟨h1, h2, h3⟩
        · exact Or.inl h
        · exact Or.inr ⟨by omega, h2, h3⟩
    · rw [if_neg hlt]
      exact Or.inl rfl

theorem overlapStart_spec (c : DocumentChunker) (t : Text)
    (start endIdx : Nat) (v : Nat) (hv : c.overlap_tokens = (v : Int))
    (hse : start ≤ endIdx) (hel : endIdx ≤ t.length) :
    start ≤ overlapStart c t start endIdx ∧
      overlapStart c t start endIdx ≤ endIdx ∧
      endIdx ≤ overlapStart c t start endIdx + 4 * v + 3 ∧
      (overlapStart c t start endIdx = endIdx ∨
        start + 4 ≤ overlapStart c t start endIdx) := by
  rw [overlapStart]
  by_cases hv0 : c.overlap_tokens > 0
  · rw [if_pos hv0]
    by_cases htk : (count_tokens c (slice t start endIdx) : Int) >
        c.overlap_tokens
    · rw [if_pos htk]
      have htokens : count_tokens c (slice t start endIdx) =
          (endIdx - start) / 4 := by
        rw [count_tokens_slice]
        congr 1
        omega
      rcases scanLoop_spec c t start endIdx
          ((count_tokens c (slice t start endIdx) : Int) - c.overlap_tokens)
          (endIdx - start) start rfl with h | ⟨h1, h2, h3⟩
      · rw [h]
        refine ⟨hse, le_refl _, by omega, Or.inl rfl⟩
      · set r := scanLoop c t start endIdx
          ((count_tokens c (slice t start endIdx) : Int) - c.overlap_tokens)
          start with hrdef
        have hrtok : count_tokens c (slice t start r) = (r - start) / 4 := by
          rw [count_tokens_slice]
          congr 1
          omega
        rw [hrtok, htokens, hv] at h3
        have hnat : (r - start) / 4 + v ≥ (endIdx - start) / 4 := by omega
        have hnat2 : (r - start) / 4 ≥ 1 := by
          have : ((endIdx - start) / 4 : Int) - (v : Int) ≥ 1 := by
            rw [htokens, hv] at htk
            omega
          omega
        refine ⟨h1, le_of_lt h2, by omega, Or.inr (by omega)⟩
    · rw [if_neg htk]
      exact ⟨hse, le_refl _, by omega, Or.inl rfl⟩
  · rw [if_neg hv0]
    exact ⟨hse, le_refl _, by omega, Or.inl rfl⟩

/-! ## Runs of characters (the greedy `+` quantifier) -/

theorem runLenFrom_eq (p : Char → Bool) (t : Text) (i : Nat) :
    runLenFrom p t i =
      if charAtIs t i p then runLenFrom p t (i + 1) + 1 else 0 := by
  rw [runLenFrom]
  by_cases h : i < t.length
  · have hiff : charAtIs t i p ↔ p (t.get ⟨i, h⟩) := by
      unfold charAtIs
      rw [List.get?_eq_getElem?, List.getElem?_eq_getElem h]
      simp [Option.any, List.get_eq_getElem]
    rw [dif_pos h]
    by_cases hp : p (t.get ⟨i, h⟩)
    · rw [if_pos hp, if_pos (hiff.mpr hp)]
    · rw [if_neg hp, if_neg (fun hc => hp (hiff.mp hc))]
  · rw [dif_neg h]
    have : t.get? i = none := by
      rw [List.get?_eq_getElem?]
      exact List.getElem?_eq_none (by omega)
    rw [if_neg (by unfold charAtIs; rw [this]; simp [Option.any])]

theorem runLenFrom_pos {p : Char → Bool} {t : Text} {i : Nat}
    (h : charAtIs t i p) : 1 ≤ runLenFrom p t i := by
  rw [runLenFrom_eq, if_pos h]
  omega

theorem runLenFrom_mem (p : Char → Bool) (t : Text) :
    ∀ (n i k : Nat), k - i = n → i ≤ k → k < i + runLenFrom p t i →
      charAtIs t k p := by
  intro n
  induction n with
  | zero =>
    intro i k hn hik hlt
    have : k = i := by omega
    subst this
    rw [runLenFrom_eq] at hlt
    by_cases hc : charAtIs t k p
    · exact hc
    · rw [if_neg hc] at hlt
      omega
  | succ n ih =>
    intro i k hn hik hlt
    rw [runLenFrom_eq] at hlt
    by_cases hc : charAtIs t i p
    · rw [if_pos hc] at hlt
      exact ih (i + 1) k (by omega) (by omega) (by omega)
    · rw [if_neg hc] at hlt
      omega

theorem runLenFrom_end (p : Char → Bool) (t : Text) :
    ∀ (n i : Nat), runLenFrom p t i = n → ¬charAtIs t (i + n) p := by
  intro n
  induction n with
  | zero =>
    intro i hn
    rw [runLenFrom_eq] at hn
    by_cases hc : charAtIs t i p
    · rw [if_pos hc] at hn
      omega
    · simpa using hc
  | succ n ih =>
    intro i hn
    rw [runLenFrom_eq] at hn
    by_cases hc : charAtIs t i p
    · rw [if_pos hc] at hn
      have hend := ih (i + 1) (by omega)
      have heq : i + (n + 1) = i + 1 + n := by omega
      rw [heq]
      exact hend
    · rw [if_neg hc] at hn
      omega

/-! ## Boundary matches under prefix extension

`re.finditer` over `text[:p]` and over `text[:q]` see different clippings of
the same matches.  The following lemmas relate the match-end predicates at
different prefix lengths: a match end at one prefix either survives as-is or
extends (the greedy run continues), and in the absence of any match in the
shorter prefix, matches of the longer prefix end strictly beyond it. -/

theorem paraEnd_run_extend {t : Text} {b mtgt : Nat}
    (h2 : 2 ≤ b) (hc1 : charAtIs t (b - 1) isNl)
    (hnl : charAtIs t b isNl) (hlt : b < mtgt) :
    ∃ j, b < j ∧ ParaEndAt t mtgt j := by
  have hr := runLenFrom_pos hnl
  refine ⟨min (b + runLenFrom isNl t b) mtgt, by omega, by omega,
    min_le_right _ _, ?_, ?_, ?_⟩
  · exact runLenFrom_mem isNl t
      (min (b + runLenFrom isNl t b) mtgt - 1 - b) b _ rfl (by omega) (by omega)
  · by_cases hj2 : b ≤ min (b + runLenFrom isNl t b) mtgt - 2
    · exact runLenFrom_mem isNl t
        (min (b + runLenFrom isNl t b) mtgt - 2 - b) b _ rfl hj2 (by omega)
    · have hj : min (b + runLenFrom isNl t b) mtgt = b + 1 := by omega
      rw [hj]
      have hj' : b + 1 - 2 = b - 1 := by omega
      rw [hj']
      exact hc1
  · rcases Nat.lt_or_ge (b + runLenFrom isNl t b) mtgt with hcase | hcase
    · refine Or.inr ?_
      rw [min_eq_left (le_of_lt hcase)]
      exact runLenFrom_end isNl t _ b rfl
    · exact Or.inl (min_eq_right hcase)

theorem paraEnd_extend {t : Text} {p q b : Nat} (hb : ParaEndAt t p b)
    (hq : b ≤ q) : ∃ j, b ≤ j ∧ ParaEndAt t q j := by
  obtain ⟨h2, _, hc1, hc2, _⟩ := hb
  rcases Nat.eq_or_lt_of_le hq with rfl | hbq
  · exact ⟨b, le_refl _, h2, le_refl _, hc1, hc2, Or.inl rfl⟩
  · by_cases hnl : charAtIs t b isNl
    · obtain ⟨j, hj1, hj2⟩ := paraEnd_run_extend h2 hc1 hnl hbq
      exact ⟨j, le_of_lt hj1, hj2⟩
    · exact ⟨b, le_refl _, h2, le_of_lt hbq, hc1, hc2, Or.inr hnl⟩

theorem paraEnd_lower {t : Text} {p q j : Nat}
    (hno : ∀ j' ≤ p, ¬ParaEndAt t p j') (hj : ParaEndAt t q j) : p < j := by
  obtain ⟨h2, hjq, hc1, hc2, hclip⟩ := hj
  by_contra hle
  push_neg at hle
  rcases Nat.eq_or_lt_of_le hle with rfl | hjp
  · exact hno j (le_refl _) ⟨h2, le_refl _, hc1, hc2, Or.inl rfl⟩
  · by_cases hnl : charAtIs t j isNl
    · obtain ⟨j', hj'1, hj'2⟩ := paraEnd_run_extend h2 hc1 hnl hjp
      exact hno j' hj'2.2.1 hj'2
    · exact hno j (le_of_lt hjp) ⟨h2, le_of_lt hjp, hc1, hc2, Or.inr hnl⟩

theorem sentEnd_run_extend {t : Text} {b mtgt i : Nat}
    (h1 : 1 ≤ b) (hs1 : charAtIs t (b - 1) isSpaceChar)
    (hsp : charAtIs t b isSpaceChar) (hlt : b < mtgt)
    (hib : i < b) (hpunct : charAtIs t i isPunctChar)
    (hspaces : ∀ k, k < b → i < k → charAtIs t k isSpaceChar) :
    ∃ j, b < j ∧ SentEndAt t mtgt j := by
  have hr := runLenFrom_pos hsp
  refine ⟨min (b + runLenFrom isSpaceChar t b) mtgt, by omega, by omega,
    min_le_right _ _, ?_, ?_, ⟨i, by omega, hpunct, ?_⟩⟩
  · exact runLenFrom_mem isSpaceChar t
      (min (b + runLenFrom isSpaceChar t b) mtgt - 1 - b) b _ rfl
      (by omega) (by omega)
  · rcases Nat.lt_or_ge (b + runLenFrom isSpaceChar t b) mtgt with hcase | hcase
    · refine Or.inr ?_
      rw [min_eq_left (le_of_lt hcase)]
      exact runLenFrom_end isSpaceChar t _ b rfl
    · exact Or.inl (min_eq_right hcase)
  · intro k hk1 hk2
    by_cases hkb : k < b
    · exact hspaces k hkb hk2
    · exact runLenFrom_mem isSpaceChar t (k - b) b k rfl (by omega) (by omega)

theorem sentEnd_extend {t : Text} {p q b : Nat} (hb : SentEndAt t p b)
    (hq : b ≤ q) : ∃ j, b ≤ j ∧ SentEndAt t q j := by
  obtain ⟨h1, _, hs1, _, i, hib, hpunct, hspaces⟩ := hb
  rcases Nat.eq_or_lt_of_le hq with rfl | hbq
  · exact ⟨b, le_refl _, h1, le_refl _, hs1, Or.inl rfl, i, hib, hpunct, hspaces⟩
  · by_cases hsp : charAtIs t b isSpaceChar
    · obtain ⟨j, hj1, hj2⟩ := sentEnd_run_extend h1 hs1 hsp hbq hib hpunct hspaces
      exact ⟨j, le_of_lt hj1, hj2⟩
    · exact ⟨b, le_refl _, h1, le_of_lt hbq, hs1, Or.inr hsp, i, hib, hpunct,
        hspaces⟩

theorem sentEnd_lower {t : Text} {p q j : Nat}
    (hno : ∀ j' ≤ p, ¬SentEndAt t p j') (hj : SentEndAt t q j) : p < j := by
  obtain ⟨h1, hjq, hs1, hclip, i, hib, hpunct, hspaces⟩ := hj
  by_contra hle
  push_neg at hle
  rcases Nat.eq_or_lt_of_le hle with rfl | hjp
  · exact hno j (le_refl _)
      ⟨h1, le_refl _, hs1, Or.inl rfl, i, hib, hpunct, hspaces⟩
  · by_cases hsp : charAtIs t j isSpaceChar
    · obtain ⟨j', hj'1, hj'2⟩ := sentEnd_run_extend h1 hs1 hsp hjp hib hpunct
        hspaces
      exact hno j' hj'2.2.1 hj'2
    · exact hno j (le_of_lt hjp)
        ⟨h1, le_of_lt hjp, hs1, Or.inr hsp, i, hib, hpunct, hspaces⟩

/-! ## The backward boundary search -/

theorem findGreatest_pos_spec {P : Nat → Prop} [DecidablePred P] {n : Nat}
    (h : Nat.findGreatest P n ≠ 0) : P (Nat.findGreatest P n) := by
  have hex : ∃ m, 0 < m ∧ m ≤ n ∧ P m := by
    by_contra hc
    push_neg at hc
    exact h (Nat.findGreatest_eq_zero_iff.mpr fun m hm1 hm2 => hc m hm1 hm2)
  obtain ⟨m, _, hm2, hm3⟩ := hex
  exact Nat.findGreatest_spec hm2 hm3

/-- Unfolding of the backward direction of `find_natural_boundary` when
boundary-respecting is enabled and the target is within the text. -/
theorem fnb_backward_eq (c : DocumentChunker) (t : Text) (p : Nat)
    (hr : c.respect_boundaries = true) (hp : p ≤ t.length) :
    find_natural_boundary c t p .backward =
      (if Nat.findGreatest (ParaEndAt t p) p ≠ 0 then
        Nat.findGreatest (ParaEndAt t p) p
      else if Nat.findGreatest (SentEndAt t p) p ≠ 0 then
        Nat.findGreatest (SentEndAt t p) p
      else p) := by
  rw [find_natural_boundary, if_neg (by simp [hr])]
  dsimp only
  rw [min_eq_left hp]

theorem fnb_no_respect (c : DocumentChunker) (t : Text) (p : Nat)
    (hr : c.respect_boundaries = false) :
    find_natural_boundary c t p .backward = p := by
  rw [find_natural_boundary, if_pos (by simp [hr])]

theorem find_natural_boundary_backward_le (c : DocumentChunker) (t : Text)
    (p : Nat) (hp : p ≤ t.length) :
    find_natural_boundary c t p .backward ≤ p := by
  by_cases hr : c.respect_boundaries
  · rw [fnb_backward_eq c t p hr hp]
    by_cases hPp : Nat.findGreatest (ParaEndAt t p) p ≠ 0
    · rw [if_pos hPp]
      exact Nat.findGreatest_le _
    · rw [if_neg hPp]
      by_cases hSp : Nat.findGreatest (SentEndAt t p) p ≠ 0
      · rw [if_pos hSp]
        exact Nat.findGreatest_le _
      · rw [if_neg hSp]
  · rw [fnb_no_respect c t p (by simpa using hr)]

/-- If the backward snap does not return its target, its result is the end of
an actual paragraph or sentence match of the target prefix. -/
theorem find_natural_boundary_backward_cases (c : DocumentChunker) (t : Text)
    (p : Nat) (hp : p ≤ t.length) (hr : c.respect_boundaries = true) :
    find_natural_boundary c t p .backward = p ∨
      ParaEndAt t p (find_natural_boundary c t p .backward) ∨
      SentEndAt t p (find_natural_boundary c t p .backward) := by
  rw [fnb_backward_eq c t p hr hp]
  by_cases hPp : Nat.findGreatest (ParaEndAt t p) p ≠ 0
  · rw [if_pos hPp]
    exact Or.inr (Or.inl (findGreatest_pos_spec hPp))
  · rw [if_neg hPp]
    by_cases hSp : Nat.findGreatest (SentEndAt t p) p ≠ 0
    · rw [if_pos hSp]
      exact Or.inr (Or.inr (findGreatest_pos_spec hSp))
    · rw [if_neg hSp]
      exact Or.inl rfl

/-- The floor property of the backward snap: the snap result at prefix `p`
is a floor for the snap result at any other admissible prefix `q` at or
beyond it.  This is the key invariant behind coverage and forward progress:
once a chunk has ended at `snap(p)`, later (larger) snap targets can never
come back strictly below that point. -/
theorem find_natural_boundary_backward_mono (c : DocumentChunker) (t : Text)
    {p q : Nat} (hp : p ≤ t.length) (hq : q ≤ t.length)
    (h : find_natural_boundary c t p .backward ≤ q) :
    find_natural_boundary c t p .backward ≤
      find_natural_boundary c t q .backward := by
  by_cases hr : c.respect_boundaries
  · rw [fnb_backward_eq c t p hr hp] at h ⊢
    rw [fnb_backward_eq c t q hr hq]
    by_cases hPp : Nat.findGreatest (ParaEndAt t p) p ≠ 0
    · rw [if_pos hPp] at h ⊢
      have hPb : ParaEndAt t p (Nat.findGreatest (ParaEndAt t p) p) :=
        findGreatest_pos_spec hPp
      obtain ⟨j, hj1, hj2⟩ := paraEnd_extend hPb h
      have hjle : j ≤ Nat.findGreatest (ParaEndAt t q) q :=
        Nat.le_findGreatest hj2.2.1 hj2
      have hPq : Nat.findGreatest (ParaEndAt t q) q ≠ 0 := by
        have := hj2.1
        omega
      rw [if_pos hPq]
      omega
    · rw [if_neg hPp] at h ⊢
      push_neg at hPp
      have hnopara : ∀ j' ≤ p, ¬ParaEndAt t p j' := by
        intro j' hj' hPj'
        rcases Nat.eq_zero_or_pos j' with rfl | hpos
        · exact absurd hPj'.1 (by omega)
        · exact (Nat.findGreatest_eq_zero_iff.mp hPp hpos hj') hPj'
      by_cases hSp : Nat.findGreatest (SentEndAt t p) p ≠ 0
      · rw [if_pos hSp] at h ⊢
        have hSb : SentEndAt t p (Nat.findGreatest (SentEndAt t p) p) :=
          findGreatest_pos_spec hSp
        by_cases hPq : Nat.findGreatest (ParaEndAt t q) q ≠ 0
        · rw [if_pos hPq]
          have hlow := paraEnd_lower hnopara (findGreatest_pos_spec hPq)
          have hle := @Nat.findGreatest_le (SentEndAt t p) _ p
          omega
        · rw [if_neg hPq]
          obtain ⟨j, hj1, hj2⟩ := sentEnd_extend hSb h
          have hjle : j ≤ Nat.findGreatest (SentEndAt t q) q :=
            Nat.le_findGreatest hj2.2.1 hj2
          have hSq : Nat.findGreatest (SentEndAt t q) q ≠ 0 := by
            have := hj2.1
            omega
          rw [if_pos hSq]
          omega
      · rw [if_neg hSp] at h ⊢
        push_neg at hSp
        have hnosent : ∀ j' ≤ p, ¬SentEndAt t p j' := by
          intro j' hj' hSj'
          rcases Nat.eq_zero_or_pos j' with rfl | hpos
          · exact absurd hSj'.1 (by omega)
          · exact (Nat.findGreatest_eq_zero_iff.mp hSp hpos hj') hSj'
        by_cases hPq : Nat.findGreatest (ParaEndAt t q) q ≠ 0
        · rw [if_pos hPq]
          exact le_of_lt (paraEnd_lower hnopara (findGreatest_pos_spec hPq))
        · rw [if_neg hPq]
          by_cases hSq : Nat.findGreatest (SentEndAt t q) q ≠ 0
          · rw [if_pos hSq]
            exact le_of_lt (sentEnd_lower hnosent (findGreatest_pos_spec hSq))
          · rw [if_neg hSq]
            exact h
  · have hrf : c.respect_boundaries = false := by simpa using hr
    rw [fnb_no_respect c t p hrf] at h ⊢
    rw [fnb_no_respect c t q hrf]
    exact h

/-! ## The per-chunk end offset and the main loop -/

theorem chunkLoop_none_of_fixpoint (c : DocumentChunker) (t : Text)
    (base : Dict) (start : Nat) (h1 : start < t.length)
    (h2 : chunkEnd c t start < t.length)
    (h3 : nextStartOf c t start = start) :
    ∀ (fuel chunkId : Nat) (acc : List Chunk),
      chunkLoop c t base fuel start chunkId acc = none := by
  intro fuel
  induction fuel with
  | zero => intro chunkId acc; rfl
  | succ n ih =>
    intro chunkId acc
    simp only [chunkLoop]
    rw [if_pos h1, if_neg (by omega), h3]
    exact ih _ _

theorem chunkEnd_spec (c : DocumentChunker) (t : Text) (m v : Nat)
    (hm : c.max_tokens = (m : Int)) (h1 : 1 ≤ m) (hvm : v < m)
    (start b : Nat) (hs : start < t.length) (hsb : start ≤ b)
    (hbl : b ≤ t.length) (hbu : b ≤ start + 4 * v + 3)
    (hfloor : ∀ q, b ≤ q → q ≤ t.length →
      b ≤ find_natural_boundary c t q .backward) :
    b ≤ chunkEnd c t start ∧ chunkEnd c t start ≤ t.length ∧
      (count_tokens c (slice t start (chunkEnd c t start)) : Int) ≤
        c.max_tokens ∧
      (chunkEnd c t start < t.length →
        ∀ q, chunkEnd c t start ≤ q → q ≤ t.length →
          chunkEnd c t start ≤ find_natural_boundary c t q .backward) := by
  have hg := growLoop_spec c t start m hm (t.length - start) start 0 rfl
    (le_refl _) (le_of_lt hs)
    (by rw [count_tokens_slice]; simp)
    (by rw [hm]; exact_mod_cast Int.ofNat_nonneg m)
  obtain ⟨hg1, hg2, hg3, hg4⟩ := hg
  rw [chunkEnd]
  by_cases he : growLoop c t start start 0 < t.length
  · rw [if_pos he]
    have hgrow := hg4 he
    have hble : b ≤ growLoop c t start start 0 := by omega
    have hfle := find_natural_boundary_backward_le c t
      (growLoop c t start start 0) hg2
    refine ⟨hfloor _ hble hg2, le_trans hfle hg2, ?_, ?_⟩
    · have hmono : count_tokens c (slice t start
          (find_natural_boundary c t (growLoop c t start start 0) .backward)) ≤
          count_tokens c (slice t start (growLoop c t start start 0)) := by
        rw [count_tokens_slice, count_tokens_slice]
        omega
      have := hg3
      omega
    · intro hlt q hq1 hq2
      exact find_natural_boundary_backward_mono c t hg2 hq2 hq1
  · rw [if_neg he]
    exact ⟨by omega, hg2, hg3, fun hlt => absurd hlt he⟩

theorem chunkLoop_run_spec (c : DocumentChunker) (t : Text) (base : Dict)
    (m v : Nat) (hm : c.max_tokens = (m : Int))
    (hv : c.overlap_tokens = (v : Int)) (h1 : 1 ≤ m) (hvm : v < m) :
    ∀ (fuel start b chunkId : Nat) (acc cs : List Chunk),
      start < t.length → start ≤ b → b ≤ t.length →
      b ≤ start + 4 * v + 3 →
      (∀ q, b ≤ q → q ≤ t.length → b ≤ find_natural_boundary c t q .backward) →
      chunkLoop c t base fuel start chunkId acc = some cs →
      ∃ res, cs = patchTotal (acc ++ res) ∧ res ≠ [] ∧
        (∃ rest, res = chunkAt c t base start chunkId :: rest) ∧
        (∃ chL, res.getLast? = some chL ∧ chL.end_index = t.length) ∧
        List.Chain' (fun a b => a.start_index < b.start_index ∧
          b.start_index ≤ a.end_index) res ∧
        (∀ ch ∈ res, ch.start_index < t.length ∧
          ch.start_index ≤ ch.end_index ∧ ch.end_index ≤ t.length ∧
          ch.end_index = chunkEnd c t ch.start_index ∧
          ch.content = slice t ch.start_index ch.end_index ∧
          ch.token_count = count_tokens c ch.content ∧
          (ch.token_count : Int) ≤ c.max_tokens) := by
  intro fuel
  induction fuel with
  | zero => intro _ _ _ _ _ _ _ _ _ _ h; exact absurd h (by simp [chunkLoop])
  | succ n ih =>
    intro start b chunkId acc cs hs hsb hbl hbu hfloor h
    have hce := chunkEnd_spec c t m v hm h1 hvm start b hs hsb hbl hbu hfloor
    obtain ⟨hceb, hcel, hcetok, hcefloor⟩ := hce
    have hstartend : start ≤ chunkEnd c t start := le_trans hsb hceb
    simp only [chunkLoop] at h
    rw [if_pos hs] at h
    by_cases he : chunkEnd c t start ≥ t.length
    · rw [if_pos he] at h
      rcases Option.some_inj.mp h with rfl
      have hend : chunkEnd c t start = t.length := by omega
      refine ⟨[chunkAt c t base start chunkId], rfl, by simp, ⟨[], rfl⟩,
        ⟨chunkAt c t base start chunkId, rfl, hend⟩, List.chain'_singleton _,
        ?_⟩
      intro ch hch
      rcases List.mem_singleton.mp hch with rfl
      exact ⟨hs, hstartend, hcel, rfl, rfl, rfl, hcetok⟩
    · rw [if_neg he] at h
      have helt : chunkEnd c t start < t.length := by omega
      have hos := overlapStart_spec c t start (chunkEnd c t start) v hv
        hstartend hcel
      obtain ⟨hos1, hos2, hos3, hos4⟩ := hos
      have hns : nextStartOf c t start =
          overlapStart c t start (chunkEnd c t start) := rfl
      rw [← hns] at hos1 hos2 hos3 hos4
      by_cases hfix : nextStartOf c t start = start
      · rw [hfix] at h
        exact absurd h (by
          rw [chunkLoop_none_of_fixpoint c t base start hs helt hfix]
          simp)
      · have hnslt : start < nextStartOf c t start := by
          have : start ≤ nextStartOf c t start := hos1
          omega
        obtain ⟨res', hres1, hres2, ⟨rest', hres3⟩, ⟨chL, hres4, hres5⟩,
          hres6, hres7⟩ := ih (nextStartOf c t start) (chunkEnd c t start)
          (chunkId + 1) (acc ++ [chunkAt c t base start chunkId]) cs
          (lt_of_le_of_lt hos2 helt) hos2 hcel (by omega)
          (hcefloor helt) h
        refine ⟨chunkAt c t base start chunkId :: res', ?_, by simp,
          ⟨res', rfl⟩, ?_, ?_, ?_⟩
        · rw [hres1, List.append_assoc]
          rfl
        · obtain ⟨y, res'', rfl⟩ := List.exists_cons_of_ne_nil hres2
          rw [List.getLast?_cons_cons]
          exact ⟨chL, hres4, hres5⟩
        · obtain ⟨y, res'', rfl⟩ := List.exists_cons_of_ne_nil hres2
          rw [List.chain'_cons]
          constructor
          · have hy : y = chunkAt c t base (nextStartOf c t start)
                (chunkId + 1) := by
              injection hres3
            rw [hy]
            exact ⟨hnslt, hos2⟩
          · exact hres6
        · intro ch hch
          rcases List.mem_cons.mp hch with rfl | hch
          · exact ⟨hs, hstartend, hcel, rfl, rfl, rfl, hcetok⟩
          · exact hres7 ch hch

/-! ## C1, C2, C5: coverage, snap restriction and token budget -/

theorem validCfg_nat {c : DocumentChunker} (h1 : 1 ≤ c.max_tokens)
    (h2 : 0 ≤ c.overlap_tokens) (h3 : c.overlap_tokens < c.max_tokens) :
    ∃ m v : Nat, c.max_tokens = (m : Int) ∧ c.overlap_tokens = (v : Int) ∧
      1 ≤ m ∧ v < m := by
  refine ⟨c.max_tokens.toNat, c.overlap_tokens.toNat, ?_, ?_, ?_, ?_⟩ <;> omega

/-- C1: for every non-empty text and every valid configuration
(`max_tokens ≥ 1`, `0 ≤ overlap_tokens < max_tokens`), any chunk list that
`chunk_text` returns covers the text exactly: the first chunk starts at `0`,
the last chunk ends at `len(text)`, the chunks appear in strictly increasing
`start_index` order, and each chunk starts at or before the previous chunk's
end (`start_index[i] ≤ end_index[i-1]`).  (The conclusion is stated of the
returned list; the source loop can also diverge and return nothing — see
`chunk_text_diverges` — in which case no list is produced at all.) -/
theorem chunk_text_coverage (c : DocumentChunker) (t : Text)
    (md : Option Dict) (fuel : Nat) (cs : List Chunk) (ht : t ≠ [])
    (h1 : 1 ≤ c.max_tokens) (h2 : 0 ≤ c.overlap_tokens)
    (h3 : c.overlap_tokens < c.max_tokens)
    (h : chunk_text c t md fuel = some cs) :
    (∃ ch0 rest, cs = ch0 :: rest ∧ ch0.start_index = 0) ∧
      (∃ chL, cs.getLast? = some chL ∧ chL.end_index = t.length) ∧
      List.Chain' (fun a b => a.start_index < b.start_index ∧
        b.start_index ≤ a.end_index) cs := by
  obtain ⟨m, v, hm, hv, hm1, hvm⟩ := validCfg_nat h1 h2 h3
  rw [chunk_text, if_neg (by simpa using ht)] at h
  obtain ⟨res, hcs, hne, ⟨rest, hhead⟩, ⟨chL, hlast, hlend⟩, hchain, hfields⟩ :=
    chunkLoop_run_spec c t (md.getD []) m v hm hv hm1 hvm fuel 0 0 0 [] cs
      (by simpa [List.length_pos] using ht) (le_refl _) (by omega) (by omega)
      (fun q _ _ => Nat.zero_le _) h
  subst hcs
  subst hhead
  rw [List.nil_append]
  refine ⟨?_, ?_, ?_⟩
  · rw [patchTotal_cons]
    exact ⟨_, _, rfl, rfl⟩
  · rw [patchTotal, List.getLast?_map, hlast, Option.map_some']
    exact ⟨_, rfl, hlend⟩
  · rw [patchTotal, List.chain'_map]
    exact hchain

/-- C5: for every valid configuration, every chunk that `chunk_text` returns
respects the token budget: its `token_count` field is the re-measured count
of its final (possibly boundary-snapped) span, and it never exceeds
`max_tokens` as measured by the session's (approximate) token counter. -/
theorem chunk_text_token_budget (c : DocumentChunker) (t : Text)
    (md : Option Dict) (fuel : Nat) (cs : List Chunk)
    (h1 : 1 ≤ c.max_tokens) (h2 : 0 ≤ c.overlap_tokens)
    (h3 : c.overlap_tokens < c.max_tokens)
    (h : chunk_text c t md fuel = some cs) :
    ∀ ch ∈ cs, ch.content = slice t ch.start_index ch.end_index ∧
      ch.token_count = count_tokens c ch.content ∧
      (ch.token_count : Int) ≤ c.max_tokens := by
  obtain ⟨m, v, hm, hv, hm1, hvm⟩ := validCfg_nat h1 h2 h3
  rw [chunk_text] at h
  by_cases hemp : t.isEmpty
  · rw [if_pos hemp] at h
    rcases Option.some_inj.mp h with rfl
    intro ch hch
    simp at hch
  · rw [if_neg hemp] at h
    have ht : 0 < t.length := by
      simp only [List.isEmpty_iff] at hemp
      exact List.length_pos.mpr hemp
    obtain ⟨res, hcs, _, _, _, _, hfields⟩ :=
      chunkLoop_run_spec c t (md.getD []) m v hm hv hm1 hvm fuel 0 0 0 [] cs
        ht (le_refl _) (by omega) (by omega) (fun q _ _ => Nat.zero_le _) h
    subst hcs
    intro ch hch
    rw [List.nil_append] at hch
    obtain ⟨ch₀, hm₀, rfl⟩ := mem_patchTotal hch
    obtain ⟨_, _, _, _, hcontent, htok, hbud⟩ := hfields ch₀ hm₀
    exact ⟨hcontent, htok, hbud⟩

/-- C2: with boundary-respecting enabled and a valid configuration, for every
chunk that `chunk_text` returns whose grown end offset is not end-of-text,
the backward boundary snap stays within the chunk's span: the chunk's final
end offset lies in `[start_index, grown_end]` (in particular it never falls
before the chunk's `start_index`), and when no paragraph or sentence match of
the grown prefix ends inside that span, the grown offset is kept unchanged. -/
theorem chunk_text_snap_in_span (c : DocumentChunker) (t : Text)
    (md : Option Dict) (fuel : Nat) (cs : List Chunk)
    (h1 : 1 ≤ c.max_tokens) (h2 : 0 ≤ c.overlap_tokens)
    (h3 : c.overlap_tokens < c.max_tokens)
    (hr : c.respect_boundaries = true)
    (h : chunk_text c t md fuel = some cs) :
    ∀ ch ∈ cs, ch.start_index ≤ ch.end_index ∧
      (growLoop c t ch.start_index ch.start_index 0 < t.length →
        ch.end_index ≤ growLoop c t ch.start_index ch.start_index 0 ∧
        ((¬∃ j, ch.start_index ≤ j ∧
            j ≤ growLoop c t ch.start_index ch.start_index 0 ∧
            (ParaEndAt t (growLoop c t ch.start_index ch.start_index 0) j ∨
              SentEndAt t (growLoop c t ch.start_index ch.start_index 0) j)) →
          ch.end_index = growLoop c t ch.start_index ch.start_index 0)) := by
  obtain ⟨m, v, hm, hv, hm1, hvm⟩ := validCfg_nat h1 h2 h3
  rw [chunk_text] at h
  by_cases hemp : t.isEmpty
  · rw [if_pos hemp] at h
    rcases Option.some_inj.mp h with rfl
    intro ch hch
    simp at hch
  · rw [if_neg hemp] at h
    have ht : 0 < t.length := by
      simp only [List.isEmpty_iff] at hemp
      exact List.length_pos.mpr hemp
    obtain ⟨res, hcs, _, _, _, _, hfields⟩ :=
      chunkLoop_run_spec c t (md.getD []) m v hm hv hm1 hvm fuel 0 0 0 [] cs
        ht (le_refl _) (by omega) (by omega) (fun q _ _ => Nat.zero_le _) h
    subst hcs
    intro ch hch
    rw [List.nil_append] at hch
    obtain ⟨ch₀, hm₀, rfl⟩ := mem_patchTotal hch
    obtain ⟨hslt, hse, hel, hend, _, _, _⟩ := hfields ch₀ hm₀
    have hg := growLoop_spec c t ch₀.start_index m hm
      (t.length - ch₀.start_index) ch₀.start_index 0 rfl (le_refl _)
      (le_of_lt hslt) (by rw [count_tokens_slice]; simp)
      (by rw [hm]; exact_mod_cast Int.ofNat_nonneg m)
    refine ⟨hse, ?_⟩
    intro hglt
    have hce : chunkEnd c t ch₀.start_index =
        find_natural_boundary c t
          (growLoop c t ch₀.start_index ch₀.start_index 0) .backward := by
      rw [chunkEnd, if_pos hglt]
    constructor
    · rw [hend, hce]
      exact find_natural_boundary_backward_le c t _ hg.2.1
    · intro hnob
      rcases find_natural_boundary_backward_cases c t
          (growLoop c t ch₀.start_index ch₀.start_index 0) hg.2.1 hr with
        heq | hbd
      · rw [hend, hce, heq]
      · exfalso
        apply hnob
        refine ⟨ch₀.end_index, hse, ?_, ?_⟩
        · rw [hend, hce]
          exact find_natural_boundary_backward_le c t _ hg.2.1
        · rw [hend, hce]
          exact hbd

theorem chunk_text_coverage_witness :
    (("ab".data : Text) ≠ [] ∧
      (1 : Int) ≤ (⟨2000, 200, true⟩ : DocumentChunker).max_tokens ∧
      (0 : Int) ≤ (⟨2000, 200, true⟩ : DocumentChunker).overlap_tokens ∧
      (⟨2000, 200, true⟩ : DocumentChunker).overlap_tokens <
        (⟨2000, 200, true⟩ : DocumentChunker).max_tokens) ∧
      ((∃ ch0 rest, coverageWitnessRun = ch0 :: rest ∧ ch0.start_index = 0) ∧
        (∃ chL, coverageWitnessRun.getLast? = some chL ∧
          chL.end_index = ("ab".data : Text).length) ∧
        List.Chain' (fun a b => a.start_index < b.start_index ∧
          b.start_index ≤ a.end_index) coverageWitnessRun) :=
  ⟨⟨by decide, by decide, by decide, by decide⟩,
    chunk_text_coverage ⟨2000, 200, true⟩ "ab".data none 1 coverageWitnessRun
      (by decide) (by decide) (by decide) (by decide)
      (by simp +decide [chunk_text, chunkLoop, chunkAt, mergedMd, chunkEnd,
        nextStartOf, growLoop, binSearch, scanLoop, overlapStart,
        find_natural_boundary, count_tokens, slice, patchTotal, dictInsert,
        Nat.findGreatest, coverageWitnessRun])⟩

theorem chunk_text_token_budget_witness :
    ((1 : Int) ≤ (⟨2000, 200, true⟩ : DocumentChunker).max_tokens ∧
      (0 : Int) ≤ (⟨2000, 200, true⟩ : DocumentChunker).overlap_tokens ∧
      (⟨2000, 200, true⟩ : DocumentChunker).overlap_tokens <
        (⟨2000, 200, true⟩ : DocumentChunker).max_tokens) ∧
      ∀ ch ∈ coverageWitnessRun,
        ch.content = slice "ab".data ch.start_index ch.end_index ∧
        ch.token_count = count_tokens ⟨2000, 200, true⟩ ch.content ∧
        (ch.token_count : Int) ≤
          (⟨2000, 200, true⟩ : DocumentChunker).max_tokens :=
  ⟨⟨by decide, by decide, by decide⟩,
    chunk_text_token_budget ⟨2000, 200, true⟩ "ab".data none 1
      coverageWitnessRun (by decide) (by decide) (by decide)
      (by simp +decide [chunk_text, chunkLoop, chunkAt, mergedMd, chunkEnd,
        nextStartOf, growLoop, binSearch, scanLoop, overlapStart,
        find_natural_boundary, count_tokens, slice, patchTotal, dictInsert,
        Nat.findGreatest, coverageWitnessRun])⟩

theorem chunk_text_snap_in_span_witness :
    ((1 : Int) ≤ (⟨1, 0, true⟩ : DocumentChunker).max_tokens ∧
      (0 : Int) ≤ (⟨1, 0, true⟩ : DocumentChunker).overlap_tokens ∧
      (⟨1, 0, true⟩ : DocumentChunker).overlap_tokens <
        (⟨1, 0, true⟩ : DocumentChunker).max_tokens ∧
      (⟨1, 0, true⟩ : DocumentChunker).respect_boundaries = true) ∧
      ∀ ch ∈ snapWitnessRun, ch.start_index ≤ ch.end_index ∧
        (growLoop ⟨1, 0, true⟩ "Ab. cdefgh".data ch.start_index
            ch.start_index 0 < ("Ab. cdefgh".data : Text).length →
          ch.end_index ≤ growLoop ⟨1, 0, true⟩ "Ab. cdefgh".data
            ch.start_index ch.start_index 0 ∧
          ((¬∃ j, ch.start_index ≤ j ∧
              j ≤ growLoop ⟨1, 0, true⟩ "Ab. cdefgh".data ch.start_index
                ch.start_index 0 ∧
              (ParaEndAt "Ab. cdefgh".data (growLoop ⟨1, 0, true⟩
                  "Ab. cdefgh".data ch.start_index ch.start_index 0) j ∨
                SentEndAt "Ab. cdefgh".data (growLoop ⟨1, 0, true⟩
                  "Ab. cdefgh".data ch.start_index ch.start_index 0) j)) →
            ch.end_index = growLoop ⟨1, 0, true⟩ "Ab. cdefgh".data
              ch.start_index ch.start_index 0)) :=
  ⟨⟨by decide, by decide, by decide, by decide⟩,
    chunk_text_snap_in_span ⟨1, 0, true⟩ "Ab. cdefgh".data none 2
      snapWitnessRun (by decide) (by decide) (by decide) (by decide)
      (by simp +decide [chunk_text, chunkLoop, chunkAt, mergedMd, chunkEnd,
        nextStartOf, growLoop, binSearch, scanLoop, overlapStart,
        find_natural_boundary, count_tokens, slice, patchTotal, dictInsert,
        Nat.findGreatest, snapWitnessRun])⟩

/-! ## C7: `chunk_document_sections` with `preserve_structure = false` -/

theorem cdsLoop_false (c : DocumentChunker) (fuel : Nat) :
    ∀ (sections : List Section) (idx k : Nat),
      chunkDocumentSectionsLoop c fuel false sections idx k = some [] := by
  intro sections
  induction sections with
  | nil => intro idx k; rfl
  | cons s rest ih =>
    intro idx k
    simp only [chunkDocumentSectionsLoop]
    rw [if_neg (by simp)]
    exact ih (idx + 1) k

/-- C7: for every list of section records, `chunk_document_sections` with
`preserve_structure = false` skips every section (the `else: pass` branch)
and returns the empty chunk list. -/
theorem chunk_document_sections_no_preserve (c : DocumentChunker)
    (sections : List Section) (fuel : Nat) :
    chunk_document_sections c sections false fuel = some [] := by
  simp [chunk_document_sections, cdsLoop_false, patchTotal_nil]

/-! ## C6: `create_chunk_summary` on the empty chunk list -/

/-- C6 counterexample: the empty-input branch of `create_chunk_summary`
returns a dict that does not contain the `chunk_boundaries` key at all
(modelled by `none`), so the returned summary does not carry
`chunk_boundaries = []` as the claim states. -/
theorem create_chunk_summary_empty_missing_boundaries :
    (create_chunk_summary ⟨2000, 200, true⟩ []).chunk_boundaries = none ∧
      (create_chunk_summary ⟨2000, 200, true⟩ []).chunk_boundaries ≠
        some [] := by
  constructor
  · rfl
  · intro h
    simp [create_chunk_summary] at h

/-- C6 amended: `create_chunk_summary` applied to the empty chunk list
returns, for every configuration and without any division, the summary with
`total_chunks = 0`, `total_tokens = 0`, `total_characters = 0`,
`average_chunk_size = 0`, `overlap_ratio = 0` — and no `chunk_boundaries`
entry at all (the empty-input branch of the source omits that key). -/
theorem create_chunk_summary_empty (c : DocumentChunker) :
    create_chunk_summary c [] =
      { total_chunks := 0, total_tokens := 0, total_characters := 0,
        average_chunk_size := 0, overlap_ratio := 0,
        chunk_boundaries := none } := rfl

/-! ## C4: constructor validation -/

/-- C4 counterexample: the configuration `max_tokens = 1`,
`overlap_tokens = 5` is invalid (`overlap_tokens ≥ max_tokens`), yet
`DocumentChunker.__init__` raises nothing: it returns a chunker holding
exactly those values, and that chunker is usable — `chunk_text` runs with it
and produces a chunk. -/
theorem init_accepts_invalid_config :
    documentChunkerInit 1 5 "cl100k_base" true = (⟨1, 5, true⟩ : DocumentChunker) ∧
      (1 : Int) ≤ 5 ∧
      (chunk_text ⟨1, 5, true⟩ "ab".data none 1).isSome = true := by
  refine ⟨rfl, by norm_num, ?_⟩
  simp +decide [chunk_text, chunkLoop, chunkAt, mergedMd, chunkEnd, nextStartOf, growLoop, binSearch,
    scanLoop, overlapStart, find_natural_boundary, count_tokens, slice,
    patchTotal, dictInsert, Nat.findGreatest]

/-- C4 amended: the constructor performs no validation at all — for every
configuration, including every invalid one (`max_tokens < 1`, or
`overlap_tokens < 0`, or `overlap_tokens ≥ max_tokens`), it simply stores
the values and returns a chunker; no configuration error is ever raised. -/
theorem init_stores_invalid_config (mt ot : Int) (em : String) (rb : Bool)
    (h : mt < 1 ∨ ot < 0 ∨ mt ≤ ot) :
    documentChunkerInit mt ot em rb =
      { max_tokens := mt, overlap_tokens := ot, respect_boundaries := rb } :=
  rfl

theorem init_stores_invalid_config_witness :
    ((0 : Int) < 1 ∨ (0 : Int) < 0 ∨ (0 : Int) ≤ 0) ∧
      documentChunkerInit 0 0 "cl100k_base" true =
        { max_tokens := 0, overlap_tokens := 0,
          respect_boundaries := true } :=
  ⟨Or.inl (by norm_num),
    init_stores_invalid_config 0 0 "cl100k_base" true (Or.inl (by norm_num))⟩

/-! ## C3: forward progress and termination of `chunk_text` -/

theorem divergence_next0 : nextStartOf divergenceChunker divergenceText 0 = 3 := by
  simp +decide [nextStartOf, chunkEnd, growLoop, binSearch, scanLoop, overlapStart,
    find_natural_boundary, count_tokens, slice, divergenceChunker, divergenceText,
    Nat.findGreatest]

theorem divergence_end0 : chunkEnd divergenceChunker divergenceText 0 = 3 := by
  simp +decide [chunkEnd, growLoop, binSearch, find_natural_boundary, count_tokens,
    slice, divergenceChunker, divergenceText, Nat.findGreatest]

theorem divergence_end3 : chunkEnd divergenceChunker divergenceText 3 = 3 := by
  simp +decide [chunkEnd, growLoop, binSearch, find_natural_boundary, count_tokens,
    slice, divergenceChunker, divergenceText, Nat.findGreatest]

theorem divergence_next3 : nextStartOf divergenceChunker divergenceText 3 = 3 := by
  simp +decide [nextStartOf, chunkEnd, growLoop, binSearch, scanLoop, overlapStart,
    find_natural_boundary, count_tokens, slice, divergenceChunker, divergenceText,
    Nat.findGreatest]

/-- C3 refuted on the code: on the valid configuration `max_tokens = 1`,
`overlap_tokens = 0` and the 12-character text `"A. bcdefghij"`, the loop
state `start_index = 3` is reached after the first chunk, and at that state
the computed chunk end and the next start position both equal 3 — no forward
progress (`start < next_start` fails), so `chunk_text` never terminates (it
returns `none` for every iteration bound). -/
theorem chunk_text_diverges :
    (1 : Int) ≤ divergenceChunker.max_tokens ∧
      (0 : Int) ≤ divergenceChunker.overlap_tokens ∧
      divergenceChunker.overlap_tokens < divergenceChunker.max_tokens ∧
      nextStartOf divergenceChunker divergenceText 0 = 3 ∧
      chunkEnd divergenceChunker divergenceText 3 = 3 ∧
      nextStartOf divergenceChunker divergenceText 3 = 3 ∧
      ∀ (fuel : Nat) (md : Option Dict),
        chunk_text divergenceChunker divergenceText md fuel = none := by
  refine ⟨by decide, by decide, by decide, divergence_next0, divergence_end3,
    divergence_next3, ?_⟩
  intro fuel md
  rw [chunk_text, if_neg (by decide)]
  match fuel with
  | 0 => rfl
  | n + 1 =>
    simp only [chunkLoop]
    rw [if_pos (by decide), if_neg (by rw [divergence_end0]; decide),
      divergence_next0]
    exact chunkLoop_none_of_fixpoint _ _ _ 3 (by decide)
      (by rw [divergence_end3]; decide) divergence_next3 _ _ _

/-! ## C10: sections without a `content` key -/

theorem cdsLoop_none_content (c : DocumentChunker) (fuel : Nat)
    (s : Section) (hs : s.content = none) :
    ∀ (pre post : List Section) (idx k : Nat),
      chunkDocumentSectionsLoop c fuel true (pre ++ s :: post) idx k =
        chunkDocumentSectionsLoop c fuel true
          (pre ++ { s with content := some [] } :: post) idx k := by
  intro pre
  induction pre with
  | nil =>
    intro post idx k
    simp [chunkDocumentSectionsLoop, hs]
  | cons p rest ih =>
    intro post idx k
    simp only [List.cons_append, chunkDocumentSectionsLoop]
    split
    · cases hct : chunk_text c (p.content.getD []) (some (sectionMetadata idx p)) fuel with
      | none => rfl
      | some scs =>
        have hrec := ih post (idx + 1) (k + scs.length)
        simp only [List.append_eq]
        rw [hrec]
    · exact ih post (idx + 1) k

/-- C10: in `chunk_document_sections` with `preserve_structure = true`, a
section record lacking the `content` key entirely is treated exactly like a
section with empty content (`section.get("content", "")` supplies `""`):
the whole result — including every later section's chunks and their
`section_index` metadata — is identical to the run where that section's
content is the empty string, so the section contributes zero chunks and no
error is raised. -/
theorem chunk_document_sections_missing_content (c : DocumentChunker)
    (fuel : Nat) (s : Section) (pre post : List Section)
    (hs : s.content = none) :
    chunk_document_sections c (pre ++ s :: post) true fuel =
      chunk_document_sections c
        (pre ++ { s with content := some [] } :: post) true fuel := by
  unfold chunk_document_sections
  rw [cdsLoop_none_content c fuel s hs pre post 0 0]

/-! ## C8: global ids and `section_index` across sections -/

theorem renumberFrom_length (k : Nat) (l : List Chunk) :
    (renumberFrom k l).length = l.length := by
  induction l generalizing k with
  | nil => rfl
  | cons ch rest ih => simp [renumberFrom, ih]

theorem renumberFrom_map_id (k : Nat) (l : List Chunk) :
    (renumberFrom k l).map (·.id) = List.range' k l.length := by
  induction l generalizing k with
  | nil => rfl
  | cons ch rest ih => simp [renumberFrom, List.range', ih]

theorem mem_renumberFrom {k : Nat} {l : List Chunk} {ch : Chunk}
    (h : ch ∈ renumberFrom k l) :
    ∃ ch₀ ∈ l, ch.metadata = dictInsert ch₀.metadata "global_chunk_id" (.int ch.id) := by
  induction l generalizing k with
  | nil => simp [renumberFrom] at h
  | cons c₀ rest ih =>
    simp only [renumberFrom, List.mem_cons] at h
    rcases h with h | h
    · exact ⟨c₀, List.mem_cons_self _ _, by rw [h]⟩
    · obtain ⟨ch₀, hm, he⟩ := ih h
      exact ⟨ch₀, List.mem_cons_of_mem _ hm, he⟩

theorem chunkLoop_acc_prefix (c : DocumentChunker) (t : Text) (base : Dict) :
    ∀ (fuel start chunkId : Nat) (acc cs : List Chunk),
      chunkLoop c t base fuel start chunkId acc = some cs →
      ∃ res, cs = patchTotal (acc ++ res) := by
  intro fuel
  induction fuel with
  | zero => intro start chunkId acc cs h; exact absurd h (by simp [chunkLoop])
  | succ n ih =>
    intro start chunkId acc cs h
    simp only [chunkLoop] at h
    by_cases hs : start < t.length
    · rw [if_pos hs] at h
      by_cases he : chunkEnd c t start ≥ t.length
      · rw [if_pos he] at h
        exact ⟨_, (Option.some_inj.mp h).symm⟩
      · rw [if_neg he] at h
        obtain ⟨res, hres⟩ := ih _ _ _ _ h
        exact ⟨_, by rw [hres, List.append_assoc]⟩
    · rw [if_neg hs] at h
      exact ⟨[], by simpa using (Option.some_inj.mp h).symm⟩

theorem chunk_text_some_ne_nil {c : DocumentChunker} {t : Text}
    {md : Option Dict} {fuel : Nat} {cs : List Chunk} (ht : t ≠ [])
    (h : chunk_text c t md fuel = some cs) : cs ≠ [] := by
  rw [chunk_text, if_neg (by simpa using ht)] at h
  match fuel with
  | 0 => exact absurd h (by simp [chunkLoop])
  | n + 1 =>
    simp only [chunkLoop] at h
    rw [if_pos (by simpa [List.length_pos] using ht)] at h
    by_cases he : chunkEnd c t 0 ≥ t.length
    · rw [if_pos he] at h
      have := (Option.some_inj.mp h).symm
      subst this
      simp [patchTotal]
    · rw [if_neg he] at h
      obtain ⟨res, hres⟩ := chunkLoop_acc_prefix c t _ _ _ _ _ _ h
      subst hres
      simp [patchTotal]

theorem chunkAt_metadata_get (c : DocumentChunker) (t : Text) (base : Dict)
    (start chunkId : Nat) (key : String) (h1 : key ≠ "chunk_index")
    (h2 : key ≠ "total_chunks") (h3 : key ≠ "has_overlap") :
    dictGet (chunkAt c t base start chunkId).metadata key = dictGet base key := by
  simp only [chunkAt, mergedMd]
  rw [dictGet_dictInsert_ne _ _ _ _ h3, dictGet_dictInsert_ne _ _ _ _ h2,
    dictGet_dictInsert_ne _ _ _ _ h1]

theorem chunkLoop_metadata (c : DocumentChunker) (t : Text) (base : Dict)
    (key : String) (h1 : key ≠ "chunk_index") (h2 : key ≠ "total_chunks")
    (h3 : key ≠ "has_overlap") :
    ∀ (fuel start chunkId : Nat) (acc cs : List Chunk),
      (∀ ch ∈ acc, dictGet ch.metadata key = dictGet base key) →
      chunkLoop c t base fuel start chunkId acc = some cs →
      ∀ ch ∈ cs, dictGet ch.metadata key = dictGet base key := by
  intro fuel
  induction fuel with
  | zero => intro _ _ _ _ _ h; exact absurd h (by simp [chunkLoop])
  | succ n ih =>
    intro start chunkId acc cs hacc h
    have hnew : ∀ ch ∈ acc ++ [chunkAt c t base start chunkId],
        dictGet ch.metadata key = dictGet base key := by
      intro ch hch
      rcases List.mem_append.mp hch with hch | hch
      · exact hacc ch hch
      · rcases List.mem_singleton.mp hch with rfl
        exact chunkAt_metadata_get c t base start chunkId key h1 h2 h3
    simp only [chunkLoop] at h
    by_cases hs : start < t.length
    · rw [if_pos hs] at h
      by_cases he : chunkEnd c t start ≥ t.length
      · rw [if_pos he] at h
        rcases Option.some_inj.mp h with rfl
        intro ch hch
        obtain ⟨ch₀, hm, rfl⟩ := mem_patchTotal hch
        simpa [dictGet_dictInsert_ne _ _ _ _ h2] using hnew ch₀ hm
      · rw [if_neg he] at h
        exact ih _ _ _ _ hnew h
    · rw [if_neg hs] at h
      rcases Option.some_inj.mp h with rfl
      intro ch hch
      obtain ⟨ch₀, hm, rfl⟩ := mem_patchTotal hch
      simpa [dictGet_dictInsert_ne _ _ _ _ h2] using hacc ch₀ hm

theorem chunk_text_metadata (key : String) {c : DocumentChunker} {t : Text}
    {base : Dict} {fuel : Nat} {cs : List Chunk}
    (h1 : key ≠ "chunk_index") (h2 : key ≠ "total_chunks")
    (h3 : key ≠ "has_overlap")
    (h : chunk_text c t (some base) fuel = some cs) :
    ∀ ch ∈ cs, dictGet ch.metadata key = dictGet base key := by
  rw [chunk_text] at h
  split at h
  · rcases Option.some_inj.mp h with rfl
    intro ch hch
    simp at hch
  · exact chunkLoop_metadata c t base key h1 h2 h3 fuel 0 0 [] cs
      (by intro ch hch; simp at hch) h

/-- C8 counterexample: three sections, the second empty.  The chunk produced
from the third section carries `section_index = 2` (its original zero-based
position), not the value `1` stated by the claim; the global ids are `0, 1`. -/
theorem cds_section_index_not_renumbered :
    (chunk_document_sections ⟨2000, 200, true⟩
        [⟨some "ab".data, none, none, none⟩, ⟨some [], none, none, none⟩,
          ⟨some "cd".data, none, none, none⟩] true 1).map
        (List.map fun ch => (ch.id, dictGet ch.metadata "section_index")) =
      some [(0, some (.int 0)), (1, some (.int 2))] := by
  simp +decide [chunk_document_sections, chunkDocumentSectionsLoop, chunk_text,
    chunkLoop, chunkAt, mergedMd, chunkEnd, nextStartOf, growLoop, binSearch, scanLoop, overlapStart,
    find_natural_boundary, count_tokens, slice, patchTotal, dictInsert, dictGet,
    sectionMetadata, renumberFrom, Nat.findGreatest]

/-- C8 amended: for `chunk_document_sections` with `preserve_structure = true`
over three sections where the second has empty content and the other two are
non-empty, the returned chunks' ids are contiguous `0..N-1`; the result splits
into the first section's chunks followed by the third section's chunks (the
second contributes none), every chunk of the first carrying
`section_index = 0` and every chunk of the third carrying `section_index = 2`
— its original zero-based position, not `1`, the value renumbering-to-skip
would give. -/
theorem chunk_document_sections_empty_middle (c : DocumentChunker)
    (fuel : Nat) (s0 s1 s2 : Section) (t0 t2 : Text) (cs : List Chunk)
    (h0 : s0.content = some t0) (h0n : t0 ≠ [])
    (h1 : s1.content = some [])
    (h2 : s2.content = some t2) (h2n : t2 ≠ [])
    (hrun : chunk_document_sections c [s0, s1, s2] true fuel = some cs) :
    cs.map (·.id) = List.range cs.length ∧
      ∃ l0 l2, cs = l0 ++ l2 ∧ l0 ≠ [] ∧ l2 ≠ [] ∧
        (∀ ch ∈ l0, dictGet ch.metadata "section_index" = some (.int 0)) ∧
        (∀ ch ∈ l2, dictGet ch.metadata "section_index" = some (.int 2)) := by
  rw [chunk_document_sections] at hrun
  rw [chunkDocumentSectionsLoop] at hrun
  rw [if_pos (by simp [h0, h0n])] at hrun
  rw [h0] at hrun
  cases hct0 : chunk_text c ((some t0).getD []) (some (sectionMetadata 0 s0)) fuel with
  | none => rw [hct0] at hrun; simp at hrun
  | some scs0 =>
    rw [hct0] at hrun
    dsimp only at hrun
    rw [chunkDocumentSectionsLoop] at hrun
    rw [if_neg (by simp [h1])] at hrun
    rw [chunkDocumentSectionsLoop] at hrun
    rw [if_pos (by simp [h2, h2n])] at hrun
    rw [h2] at hrun
    cases hct2 : chunk_text c ((some t2).getD []) (some (sectionMetadata 2 s2)) fuel with
    | none => rw [hct2] at hrun; simp at hrun
    | some scs2 =>
      rw [hct2] at hrun
      dsimp only at hrun
      rw [chunkDocumentSectionsLoop] at hrun
      dsimp only at hrun
      simp only [Option.map_some'] at hrun
      rcases Option.some_inj.mp hrun.symm with rfl
      have hs0 : scs0 ≠ [] := chunk_text_some_ne_nil h0n (by simpa using hct0)
      have hs2 : scs2 ≠ [] := chunk_text_some_ne_nil h2n (by simpa using hct2)
      have hmd0 := chunk_text_metadata "section_index"
        (by decide) (by decide) (by decide) hct0
      have hmd2 := chunk_text_metadata "section_index"
        (by decide) (by decide) (by decide) hct2
      simp only [Nat.zero_add, List.append_nil]
      constructor
      · rw [patchTotal_map_id, patchTotal_length]
        simp only [List.map_append, List.length_append,
          renumberFrom_map_id, renumberFrom_length]
        rw [List.range_eq_range']
        have hr := List.range'_append 0 scs0.length scs2.length 1
        simp only [Nat.one_mul, Nat.zero_add] at hr
        rw [Nat.add_comm scs0.length scs2.length]
        exact hr
      · refine ⟨(renumberFrom 0 scs0).map (fun ch => { ch with
            metadata := dictInsert ch.metadata "total_chunks"
              (.int ((renumberFrom 0 scs0).length +
                (renumberFrom scs0.length scs2).length)) }),
          (renumberFrom scs0.length scs2).map (fun ch => { ch with
            metadata := dictInsert ch.metadata "total_chunks"
              (.int ((renumberFrom 0 scs0).length +
                (renumberFrom scs0.length scs2).length)) }),
          ?_, ?_, ?_, ?_, ?_⟩
        · exact patchTotal_append _ _
        · have hlen : (renumberFrom 0 scs0).length ≠ 0 := by
            rw [renumberFrom_length]
            simpa [List.length_eq_zero] using hs0
          intro hnil
          exact hlen (by simpa using congrArg List.length hnil)
        · have hlen : (renumberFrom scs0.length scs2).length ≠ 0 := by
            rw [renumberFrom_length]
            simpa [List.length_eq_zero] using hs2
          intro hnil
          exact hlen (by simpa using congrArg List.length hnil)
        · intro ch hch
          obtain ⟨ch₀, hm₀, rfl⟩ := List.mem_map.mp hch
          obtain ⟨chS, hmS, hmeta⟩ := mem_renumberFrom hm₀
          show dictGet (dictInsert ch₀.metadata "total_chunks" _)
            "section_index" = some (.int 0)
          rw [dictGet_dictInsert_ne _ _ _ _ (by decide), hmeta,
            dictGet_dictInsert_ne _ _ _ _ (by decide), hmd0 chS hmS]
          simp [sectionMetadata, dictGet]
        · intro ch hch
          obtain ⟨ch₀, hm₀, rfl⟩ := List.mem_map.mp hch
          obtain ⟨chS, hmS, hmeta⟩ := mem_renumberFrom hm₀
          show dictGet (dictInsert ch₀.metadata "total_chunks" _)
            "section_index" = some (.int 2)
          rw [dictGet_dictInsert_ne _ _ _ _ (by decide), hmeta,
            dictGet_dictInsert_ne _ _ _ _ (by decide), hmd2 chS hmS]
          simp [sectionMetadata, dictGet]

theorem chunk_document_sections_empty_middle_witness :
    ((⟨some "ab".data, none, none, none⟩ : Section).content = some "ab".data ∧
      "ab".data ≠ [] ∧
      (⟨some [], none, none, none⟩ : Section).content = some [] ∧
      (⟨some "cd".data, none, none, none⟩ : Section).content = some "cd".data ∧
      "cd".data ≠ []) ∧
      ∃ cs, chunk_document_sections ⟨2000, 200, true⟩
          [⟨some "ab".data, none, none, none⟩, ⟨some [], none, none, none⟩,
            ⟨some "cd".data, none, none, none⟩] true 1 = some cs ∧
        (cs.map (·.id) = List.range cs.length ∧
          ∃ l0 l2, cs = l0 ++ l2 ∧ l0 ≠ [] ∧ l2 ≠ [] ∧
            (∀ ch ∈ l0, dictGet ch.metadata "section_index" = some (.int 0)) ∧
            (∀ ch ∈ l2, dictGet ch.metadata "section_index" = some (.int 2))) := by
  have hrun : chunk_document_sections ⟨2000, 200, true⟩
      [⟨some "ab".data, none, none, none⟩, ⟨some [], none, none, none⟩,
        ⟨some "cd".data, none, none, none⟩] true 1 =
      some [{ id := 0, content := "ab".data, token_count := 0, char_count := 2,
              start_index := 0, end_index := 2, overlap_tokens := 0,
              metadata := [("section_index", .int 0),
                ("section_title", .str "Section 1"), ("section_level", .int 1),
                ("section_path", .str ""), ("chunk_index", .int 0),
                ("total_chunks", .int 2), ("has_overlap", .bool false),
                ("global_chunk_id", .int 0)] },
            { id := 1, content := "cd".data, token_count := 0, char_count := 2,
              start_index := 0, end_index := 2, overlap_tokens := 0,
              metadata := [("section_index", .int 2),
                ("section_title", .str "Section 3"), ("section_level", .int 1),
                ("section_path", .str ""), ("chunk_index", .int 0),
                ("total_chunks", .int 2), ("has_overlap", .bool false),
                ("global_chunk_id", .int 1)] }] := by
    simp +decide [chunk_document_sections, chunkDocumentSectionsLoop, chunk_text,
      chunkLoop, chunkAt, mergedMd, chunkEnd, nextStartOf, growLoop, binSearch, scanLoop,
      overlapStart, find_natural_boundary, count_tokens, slice, patchTotal,
      dictInsert, sectionMetadata, renumberFrom, Nat.findGreatest]
  exact ⟨⟨rfl, by decide, rfl, rfl, by decide⟩,
    ⟨_, hrun, chunk_document_sections_empty_middle ⟨2000, 200, true⟩ 1 _ _ _
      "ab".data "cd".data _ rfl (by decide) rfl rfl (by decide) hrun⟩⟩

theorem chunk_document_sections_missing_content_witness :
    (Section.content ⟨none, none, none, none⟩ = none) ∧
      chunk_document_sections ⟨2000, 200, true⟩
          ([] ++ (⟨none, none, none, none⟩ : Section) ::
            [⟨some "ab".data, none, none, none⟩]) true 1 =
        chunk_document_sections ⟨2000, 200, true⟩
          ([] ++ ({ (⟨none, none, none, none⟩ : Section) with
            content := some [] }) :: [⟨some "ab".data, none, none, none⟩])
          true 1 :=
  ⟨rfl, chunk_document_sections_missing_content ⟨2000, 200, true⟩ 1
    ⟨none, none, none, none⟩ [] [⟨some "ab".data, none, none, none⟩] rfl⟩

/-! ## C9: `chunk_text` does not mutate the caller's metadata dict -/

theorem patchOne_get_ne (v : Value) (σ : Store) (ch : ChunkS) (i : Nat)
    (h : ch.metadata ≠ i) : (patchOne v σ ch).get? i = σ.get? i := by
  simp only [patchOne, List.get?_eq_getElem?]
  exact List.getElem?_set_ne h

theorem patchOne_length (v : Value) (σ : Store) (ch : ChunkS) :
    (patchOne v σ ch).length = σ.length := by
  simp [patchOne]

theorem foldl_patchOne_get_not_mem (v : Value) (l : List ChunkS) :
    ∀ (σ : Store) (i : Nat), (∀ ch ∈ l, ch.metadata ≠ i) →
      (l.foldl (patchOne v) σ).get? i = σ.get? i := by
  induction l with
  | nil => intro σ i _; rfl
  | cons c₀ rest ih =>
    intro σ i hne
    rw [List.foldl_cons, ih _ _ (fun ch hch => hne ch (List.mem_cons_of_mem _ hch)),
      patchOne_get_ne _ _ _ _ (hne c₀ (List.mem_cons_self _ _))]

theorem foldl_patchOne_get_mem (v : Value) (l : List ChunkS) :
    ∀ (σ : Store) (ch : ChunkS), ch ∈ l →
      (l.map (·.metadata)).Pairwise (· ≠ ·) → ch.metadata < σ.length →
      (l.foldl (patchOne v) σ).get? ch.metadata =
        some (dictInsert ((σ.get? ch.metadata).getD []) "total_chunks" v) := by
  induction l with
  | nil => intro σ ch hch; simp at hch
  | cons c₀ rest ih =>
    intro σ ch hch hpw hlt
    rw [List.map_cons, List.pairwise_cons] at hpw
    rcases List.mem_cons.mp hch with rfl | hch
    · rw [List.foldl_cons,
        foldl_patchOne_get_not_mem v rest _ ch.metadata
          (fun ch' hch' => fun he =>
            hpw.1 ch'.metadata (List.mem_map_of_mem _ hch') he.symm)]
      simp only [patchOne, List.get?_eq_getElem?]
      exact List.getElem?_set_self hlt
    · rw [List.foldl_cons,
        ih _ ch hch hpw.2 (by rw [patchOne_length]; exact hlt),
        patchOne_get_ne v σ c₀ ch.metadata
          (hpw.1 ch.metadata (List.mem_map_of_mem _ hch))]

theorem chunkLoopS_spec (c : DocumentChunker) (t : Text) (baseRef : Nat) :
    ∀ (fuel : Nat) (σ : Store) (start chunkId : Nat) (acc : List ChunkS)
      (σ' : Store) (cs : List ChunkS),
      baseRef < σ.length →
      (∀ ch ∈ acc, baseRef < ch.metadata ∧ ch.metadata < σ.length ∧
        σ.get? ch.metadata = some (mergedMd ((σ.get? baseRef).getD []) ch.id)) →
      (acc.map (·.metadata)).Pairwise (· < ·) →
      chunkLoopS c t baseRef fuel σ start chunkId acc = some (σ', cs) →
      (∀ i, i ≤ baseRef → σ'.get? i = σ.get? i) ∧
      ∀ ch ∈ cs, baseRef < ch.metadata ∧
        σ'.get? ch.metadata =
          some (dictInsert (mergedMd ((σ.get? baseRef).getD []) ch.id)
            "total_chunks" (.int cs.length)) := by
  intro fuel
  induction fuel with
  | zero => intro _ _ _ _ _ _ _ _ _ h; exact absurd h (by simp [chunkLoopS])
  | succ n ih =>
    intro σ start chunkId acc σ' cs hbase hacc hpw h
    simp only [chunkLoopS] at h
    by_cases hs : start < t.length
    · rw [if_pos hs] at h
      set ch₀ : ChunkS :=
        { id := chunkId, content := slice t start (chunkEnd c t start),
          token_count := count_tokens c (slice t start (chunkEnd c t start)),
          char_count := (slice t start (chunkEnd c t start)).length,
          start_index := start, end_index := chunkEnd c t start,
          overlap_tokens := if chunkId > 0 then c.overlap_tokens else 0,
          metadata := σ.length } with hch₀
      set σ₁ : Store := σ ++ [mergedMd ((σ.get? baseRef).getD []) chunkId]
        with hσ₁
      have hσ₁base : σ₁.get? baseRef = σ.get? baseRef := by
        simp only [hσ₁, List.get?_eq_getElem?]
        exact List.getElem?_append_left hbase
      have hσ₁len : σ.length < σ₁.length := by simp [hσ₁]
      have hσ₁new : σ₁.get? σ.length =
          some (mergedMd ((σ.get? baseRef).getD []) chunkId) := by
        simp only [hσ₁, List.get?_eq_getElem?]
        exact List.getElem?_concat_length _ _
      have hacc' : ∀ ch ∈ acc ++ [ch₀], baseRef < ch.metadata ∧
          ch.metadata < σ₁.length ∧
          σ₁.get? ch.metadata =
            some (mergedMd ((σ₁.get? baseRef).getD []) ch.id) := by
        intro ch hch
        rcases List.mem_append.mp hch with hch | hch
        · obtain ⟨ha, hb, hc⟩ := hacc ch hch
          refine ⟨ha, lt_trans hb hσ₁len, ?_⟩
          rw [hσ₁base]
          rw [show σ₁.get? ch.metadata = σ.get? ch.metadata from by
            simp only [hσ₁, List.get?_eq_getElem?]
            exact List.getElem?_append_left hb]
          exact hc
        · rcases List.mem_singleton.mp hch with rfl
          rw [hσ₁base]
          exact ⟨hbase, hσ₁len, by rw [hch₀]; exact hσ₁new⟩
      have hpw' : ((acc ++ [ch₀]).map (·.metadata)).Pairwise (· < ·) := by
        rw [List.map_append, List.pairwise_append]
        refine ⟨hpw, by simp, ?_⟩
        intro a ha b hb
        obtain ⟨ch, hch, rfl⟩ := List.mem_map.mp ha
        simp only [hch₀, List.map_cons, List.map_nil, List.mem_singleton] at hb
        rw [hb]
        exact (hacc ch hch).2.1
      by_cases he : chunkEnd c t start ≥ t.length
      · rw [if_pos he] at h
        obtain ⟨hσ'', hcs⟩ := Prod.mk.injEq _ _ _ _ |>.mp (Option.some_inj.mp h)
        subst hcs
        constructor
        · intro i hi
          rw [← hσ'']
          simp only [patchTotalS]
          rw [foldl_patchOne_get_not_mem _ _ _ _
            (fun ch hch => Nat.ne_of_gt (lt_of_le_of_lt hi (hacc' ch hch).1))]
          simp only [hσ₁, List.get?_eq_getElem?]
          exact List.getElem?_append_left (lt_of_le_of_lt hi hbase)
        · intro ch hch
          obtain ⟨ha, hb, hc⟩ := hacc' ch hch
          refine ⟨ha, ?_⟩
          rw [← hσ'']
          simp only [patchTotalS]
          rw [foldl_patchOne_get_mem _ _ _ ch hch
            (hpw'.imp fun hlt => Nat.ne_of_lt hlt) hb]
          rw [hσ₁base] at hc
          rw [hc]
          rfl
      · rw [if_neg he] at h
        obtain ⟨h1, h2⟩ := ih σ₁ (nextStartOf c t start) (chunkId + 1)
          (acc ++ [ch₀]) σ' cs (lt_trans hbase hσ₁len) hacc' hpw' h
        constructor
        · intro i hi
          rw [h1 i hi]
          simp only [hσ₁, List.get?_eq_getElem?]
          exact List.getElem?_append_left (lt_of_le_of_lt hi hbase)
        · intro ch hch
          obtain ⟨ha, hb⟩ := h2 ch hch
          rw [hσ₁base] at hb
          exact ⟨ha, hb⟩
    · rw [if_neg hs] at h
      obtain ⟨hσ'', hcs⟩ := Prod.mk.injEq _ _ _ _ |>.mp (Option.some_inj.mp h)
      subst hcs
      constructor
      · intro i hi
        rw [← hσ'']
        simp only [patchTotalS]
        exact foldl_patchOne_get_not_mem _ _ _ _
          (fun ch hch => Nat.ne_of_gt (lt_of_le_of_lt hi (hacc ch hch).1))
      · intro ch hch
        obtain ⟨ha, hb, hc⟩ := hacc ch hch
        refine ⟨ha, ?_⟩
        rw [← hσ'']
        simp only [patchTotalS]
        rw [foldl_patchOne_get_mem _ _ _ ch hch
          (hpw.imp fun hlt => Nat.ne_of_lt hlt) hb]
        rw [hc]
        rfl

/-- C9 amended: under reference semantics, `chunk_text` called with a
reference to the caller's metadata dict never writes to that dict: after the
run the caller's dict holds exactly its original entries.  Every returned
chunk carries a freshly built dict (a reference strictly beyond the caller's)
whose final content is `{**caller_dict, "chunk_index": chunk_id,
"total_chunks": n, "has_overlap": chunk_id > 0}` — the caller's pairs with
the three reserved keys overwritten — and the deferred `total_chunks` patch
writes only these per-chunk dicts. -/
theorem chunk_textS_frame (c : DocumentChunker) (t : Text) (fuel : Nat)
    (σ σ' : Store) (r : Nat) (cs : List ChunkS) (hr : r < σ.length)
    (h : chunk_textS c t (some r) σ fuel = some (σ', cs)) :
    σ'.get? r = σ.get? r ∧
      ∀ ch ∈ cs, r < ch.metadata ∧
        σ'.get? ch.metadata =
          some (dictInsert (mergedMd ((σ.get? r).getD []) ch.id)
            "total_chunks" (.int cs.length)) := by
  rw [chunk_textS] at h
  by_cases hemp : t.isEmpty
  · rw [if_pos hemp] at h
    obtain ⟨hσ'', hcs⟩ := Prod.mk.injEq _ _ _ _ |>.mp (Option.some_inj.mp h)
    subst hcs
    exact ⟨by rw [hσ''], by simp⟩
  · rw [if_neg hemp] at h
    by_cases hbase : (σ.get? r).getD [] = []
    · rw [if_pos hbase] at h
      obtain ⟨h1, h2⟩ := chunkLoopS_spec c t σ.length fuel (σ ++ [[]]) 0 0 []
        σ' cs (by simp) (by simp) (by simp) h
      have hfresh : ((σ ++ [[]] : Store).get? σ.length).getD [] =
          (σ.get? r).getD [] := by
        rw [hbase]
        simp only [List.get?_eq_getElem?]
        rw [List.getElem?_concat_length]
        rfl
      constructor
      · rw [h1 r (le_of_lt hr)]
        simp only [List.get?_eq_getElem?]
        exact List.getElem?_append_left hr
      · intro ch hch
        obtain ⟨ha, hb⟩ := h2 ch hch
        rw [hfresh] at hb
        exact ⟨lt_trans hr ha, hb⟩
    · rw [if_neg hbase] at h
      obtain ⟨h1, h2⟩ := chunkLoopS_spec c t r fuel σ 0 0 [] σ' cs hr
        (by simp) (by simp) h
      exact ⟨h1 r le_rfl, h2⟩

/-- C9 counterexample (the claim as stated): when the caller's dict already
holds a reserved key — here `{"chunk_index": "X"}` — the chunk's freshly
built dict does **not** contain all of the caller's key-value pairs: the
reserved key is overwritten (`"chunk_index"` becomes the int `0`, not the
caller's `"X"`).  The final store shows the caller's dict (index 0) unchanged
and the chunk's dict (index 1) without the caller's pair. -/
theorem chunk_textS_reserved_key_overwritten :
    (chunk_textS ⟨2000, 200, true⟩ "ab".data (some 0)
        [[("chunk_index", Value.str "X")]] 1).map Prod.fst =
      some [[("chunk_index", Value.str "X")],
        [("chunk_index", Value.int 0), ("total_chunks", Value.int 1),
          ("has_overlap", Value.bool false)]] := by
  simp +decide [chunk_textS, chunkLoopS, mergedMd, chunkEnd, nextStartOf,
    growLoop, binSearch, scanLoop, overlapStart, find_natural_boundary,
    count_tokens, slice, patchTotalS, patchOne, dictInsert, Nat.findGreatest]

theorem chunk_textS_frame_witness :
    (0 < ([[("source", Value.str "doc")]] : Store).length) ∧
      (([[("source", Value.str "doc")],
          [("source", Value.str "doc"), ("chunk_index", Value.int 0),
            ("total_chunks", Value.int 1),
            ("has_overlap", Value.bool false)]] : Store).get? 0 =
          ([[("source", Value.str "doc")]] : Store).get? 0 ∧
        ∀ ch ∈ [(⟨0, "ab".data, 0, 2, 0, 2, 0, 1⟩ : ChunkS)],
          0 < ch.metadata ∧
            ([[("source", Value.str "doc")],
              [("source", Value.str "doc"), ("chunk_index", Value.int 0),
                ("total_chunks", Value.int 1),
                ("has_overlap", Value.bool false)]] : Store).get? ch.metadata =
              some (dictInsert
                (mergedMd ((([[("source", Value.str "doc")]] : Store).get?
                  0).getD []) ch.id) "total_chunks" (.int 1))) := by
  refine ⟨by decide, chunk_textS_frame ⟨2000, 200, true⟩ "ab".data 1 _ _ 0 _
    (by decide) ?_⟩
  simp +decide [chunk_textS, chunkLoopS, mergedMd, chunkEnd, nextStartOf,
    growLoop, binSearch, scanLoop, overlapStart, find_natural_boundary,
    count_tokens, slice, patchTotalS, patchOne, dictInsert, Nat.findGreatest]

end DocxProcessor
